/-
Verification of the FinDOC_Classification repository core:
document ingestion (document_processor.py) and classification response
validation (gemini_classifier.py).

Modelling conventions:
* Python strings are modelled as lists of Unicode code points (List Nat);
  byte payloads are lists of naturals below 256.
* External collaborators (the PyPDF2 reader, the docx reader, PIL image
  opening, and the remote generative model) are modelled as oracle data
  carried by the input structures: the embedding covers exactly the
  repository logic applied to whatever those collaborators return.
* Fallible Python code (raise/except) is modelled with Except / Option.
-/
import Mathlib

namespace FinDoc

/-- Convert a Lean string literal to its list of Unicode code points.
Used to transcribe the Python string literals of the source. -/
def strLit (s : String) : List Nat := s.data.map Char.toNat

/-- The whitespace predicate of Python str.strip: all code points with the
Unicode whitespace property. -/
def pyWs (c : Nat) : Bool :=
  (9 ≤ c && c ≤ 13) || (28 ≤ c && c ≤ 32) || c == 133 || c == 160 ||
  c == 5760 || (8192 ≤ c && c ≤ 8202) || c == 8232 || c == 8233 ||
  c == 8239 || c == 8287 || c == 12288

/-- JSON inter-token whitespace (space, tab, linefeed, carriage return),
as in the WHITESPACE pattern of the Python json module. -/
def jsonWsB (c : Nat) : Bool :=
  c == 32 || c == 9 || c == 10 || c == 13

theorem jsonWs_le_pyWs {c : Nat} (h : jsonWsB c = true) : pyWs c = true := by
  simp only [jsonWsB, Bool.or_eq_true, beq_iff_eq] at h
  rcases h with ((h | h) | h) | h <;> subst h <;> decide

/-- Strip trailing code points satisfying p (the right half of str.strip). -/
def rstrip (p : Nat → Bool) (l : List Nat) : List Nat :=
  (l.reverse.dropWhile p).reverse

/-- Model of Python str.strip(): drop leading and trailing whitespace. -/
def pyStrip (l : List Nat) : List Nat :=
  rstrip pyWs (l.dropWhile pyWs)

theorem dropWhile_append_all {p : Nat → Bool} {a l : List Nat}
    (h : ∀ x ∈ a, p x = true) :
    (a ++ l).dropWhile p = l.dropWhile p := by
  induction a with
  | nil => rfl
  | cons x xs ih =>
      simp only [List.cons_append, List.dropWhile_cons_of_pos (h x (by simp))]
      exact ih fun y hy => h y (by simp [hy])

theorem dropWhile_eq_self_of_head {p : Nat → Bool} {c : Nat} {l : List Nat}
    (h : p c = false) : (c :: l).dropWhile p = c :: l := by
  simp [List.dropWhile_cons, h]

theorem rstrip_append_all {p : Nat → Bool} {l b : List Nat}
    (h : ∀ x ∈ b, p x = true) : rstrip p (l ++ b) = rstrip p l := by
  unfold rstrip
  rw [List.reverse_append, dropWhile_append_all]
  intro x hx
  exact h x (List.mem_reverse.mp hx)

theorem rstrip_concat_of_neg {p : Nat → Bool} {t : List Nat} {c : Nat}
    (h : p c = false) : rstrip p (t ++ [c]) = t ++ [c] := by
  unfold rstrip
  rw [List.reverse_append, List.reverse_singleton, List.singleton_append,
    dropWhile_eq_self_of_head h]
  simp

theorem rstrip_eq_self_of_getLast {p : Nat → Bool} {l : List Nat}
    (hne : l ≠ []) (h : p (l.getLast hne) = false) :
    rstrip p l = l := by
  conv_lhs => rw [← List.dropLast_append_getLast hne]
  rw [rstrip_concat_of_neg h, List.dropLast_append_getLast hne]

/-- A list decomposed as leading run satisfying p, middle with clean edges,
and trailing run satisfying p strips to exactly the middle. -/
theorem pyStrip_sandwich {a t b : List Nat}
    (ha : ∀ x ∈ a, pyWs x = true) (hb : ∀ x ∈ b, pyWs x = true)
    (hne : t ≠ [])
    (hhead : pyWs (t.head hne) = false)
    (hlast : pyWs (t.getLast hne) = false) :
    pyStrip (a ++ t ++ b) = t := by
  unfold pyStrip
  rw [List.append_assoc, dropWhile_append_all ha]
  obtain ⟨c, t0, rfl⟩ := List.exists_cons_of_ne_nil hne
  simp only [List.head_cons] at hhead
  rw [List.cons_append, dropWhile_eq_self_of_head hhead, ← List.cons_append]
  rw [rstrip_append_all hb]
  exact rstrip_eq_self_of_getLast hne hlast

theorem pyStrip_eq_self {t : List Nat} (hne : t ≠ [])
    (hhead : pyWs (t.head hne) = false)
    (hlast : pyWs (t.getLast hne) = false) :
    pyStrip t = t := by
  have := pyStrip_sandwich (a := []) (b := []) (by simp) (by simp)
    hne hhead hlast
  simpa using this

/-- Model of Python str.startswith: first argument is the pattern. -/
def startsWithL : List Nat → List Nat → Bool
  | [], _ => true
  | _ :: _, [] => false
  | a :: as, b :: bs => a == b && startsWithL as bs

/-- Model of Python str.endswith: first argument is the pattern. -/
def endsWithL (pat l : List Nat) : Bool :=
  startsWithL pat.reverse l.reverse

theorem startsWithL_append (pre rest : List Nat) :
    startsWithL pre (pre ++ rest) = true := by
  induction pre with
  | nil => rfl
  | cons a as ih => simp [startsWithL, ih]

theorem endsWithL_append (l pat : List Nat) :
    endsWithL pat (l ++ pat) = true := by
  unfold endsWithL
  rw [List.reverse_append]
  exact startsWithL_append _ _

theorem startsWithL_iff (pre l : List Nat) :
    startsWithL pre l = true ↔ ∃ rest, l = pre ++ rest := by
  induction pre generalizing l with
  | nil => simp [startsWithL]
  | cons a as ih =>
      cases l with
      | nil => simp [startsWithL]
      | cons b bs =>
          simp only [startsWithL, Bool.and_eq_true, beq_iff_eq, ih,
            List.cons_append, List.cons.injEq]
          constructor
          · rintro ⟨rfl, rest, rfl⟩
            exact ⟨rest, rfl, rfl⟩
          · rintro ⟨rest, rfl, rfl⟩
            exact ⟨rfl, rest, rfl⟩

theorem endsWithL_iff (pat l : List Nat) :
    endsWithL pat l = true ↔ ∃ pre, l = pre ++ pat := by
  unfold endsWithL
  rw [startsWithL_iff]
  constructor
  · rintro ⟨rest, hrest⟩
    refine ⟨rest.reverse, ?_⟩
    have := congrArg List.reverse hrest
    simpa using this
  · rintro ⟨pre, rfl⟩
    exact ⟨pre.reverse, by simp⟩

/-! ### UTF-8 and Latin-1 decoding

Models of bytes.decode in Python: strict UTF-8 decoding per RFC 3629
(rejecting overlong forms, surrogates and values above U+10FFFF), and
Latin-1 decoding, which maps each byte to the code point of the same
value and succeeds on every byte. -/

def isCont (b : Nat) : Bool := 128 ≤ b && b ≤ 191

/-- Strict UTF-8 decoding of a byte list to code points; none on any
malformed sequence, as bytes.decode with the utf-8 codec. -/
def utf8Decode : List Nat → Option (List Nat)
  | [] => some []
  | b1 :: rest =>
    if b1 ≤ 127 then (utf8Decode rest).map (b1 :: ·)
    else if b1 ≤ 193 then none
    else if b1 ≤ 223 then
      match rest with
      | b2 :: rest2 =>
          if isCont b2 then
            (utf8Decode rest2).map (((b1 - 192) * 64 + (b2 - 128)) :: ·)
          else none
      | [] => none
    else if b1 ≤ 239 then
      match rest with
      | b2 :: b3 :: rest2 =>
          let lo2 := if b1 == 224 then 160 else 128
          let hi2 := if b1 == 237 then 159 else 191
          if lo2 ≤ b2 && b2 ≤ hi2 && isCont b3 then
            (utf8Decode rest2).map
              (((b1 - 224) * 4096 + (b2 - 128) * 64 + (b3 - 128)) :: ·)
          else none
      | _ => none
    else if b1 ≤ 244 then
      match rest with
      | b2 :: b3 :: b4 :: rest2 =>
          let lo2 := if b1 == 240 then 144 else 128
          let hi2 := if b1 == 244 then 143 else 191
          if lo2 ≤ b2 && b2 ≤ hi2 && isCont b3 && isCont b4 then
            (utf8Decode rest2).map
              (((b1 - 240) * 262144 + (b2 - 128) * 4096 +
                (b3 - 128) * 64 + (b4 - 128)) :: ·)
          else none
      | _ => none
    else none

/-- Latin-1 decoding: each byte maps to the code point of the same value.
The Option result mirrors the guarded decode call of the source; it can
only be none if some entry is not a byte at all. -/
def latin1Decode (bs : List Nat) : Option (List Nat) :=
  if bs.all (· < 256) then some bs else none

/-! ### document_processor.py -/

/-- Distinct failure sites of DocumentProcessor (each one a raise of an
exception in the source), with the message the source formats. -/
inductive ExtractErr where
  | unsupportedType (msg : List Nat)
  | pdfFailure (msg : List Nat)
  | imageOpenFailure (msg : List Nat)
  | txtDecodeFailure (msg : List Nat)
  | docxFailure (msg : List Nat)
  deriving DecidableEq

def ExtractErr.message : ExtractErr → List Nat
  | .unsupportedType m => m
  | .pdfFailure m => m
  | .imageOpenFailure m => m
  | .txtDecodeFailure m => m
  | .docxFailure m => m

/-- Result of extraction: text for PDF, plain text and docx uploads, an
image payload for image uploads. -/
inductive ExtractedOut where
  | text (t : List Nat)
  | image (img : List Nat)
  deriving DecidableEq

/-- An uploaded file: the declared media type, the raw byte payload, and
the oracle outcomes of the external readers (PyPDF2 page texts, docx
paragraph texts, PIL image opening), each an error message on failure.
The embedding covers the repository logic for every possible behaviour of
those collaborators. -/
structure UploadedFile where
  ftype : List Nat
  bytes : List Nat
  pdfParse : Except (List Nat) (List (List Nat))
  docxParse : Except (List Nat) (List (List Nat))
  imageOpen : Except (List Nat) (List Nat)

/-- Concatenation of the page loop in _extract_from_pdf and
_extract_from_docx: text plus a newline per element. -/
def joinNl (pages : List (List Nat)) : List Nat :=
  (pages.map (· ++ [10])).flatten

/-- DocumentProcessor._extract_from_pdf: newline-join the per-page texts
produced by the PDF reader and strip; wrap a reader exception. -/
def extract_from_pdf (f : UploadedFile) : Except ExtractErr (List Nat) :=
  match f.pdfParse with
  | .ok pages => .ok (pyStrip (joinNl pages))
  | .error e =>
      .error (.pdfFailure (strLit "Failed to extract text from PDF: " ++ e))

/-- DocumentProcessor._extract_from_text: decode the payload as UTF-8,
fall back to Latin-1 on a UnicodeDecodeError, strip the result. -/
def extract_from_text (bs : List Nat) : Except ExtractErr (List Nat) :=
  match utf8Decode bs with
  | some cps => .ok (pyStrip cps)
  | none =>
      match latin1Decode bs with
      | some cps => .ok (pyStrip cps)
      | none => .error (.txtDecodeFailure (strLit "Failed to decode text file"))

/-- DocumentProcessor._extract_from_docx: newline-join the paragraph texts
produced by the docx reader and strip; wrap a reader exception. -/
def extract_from_docx (f : UploadedFile) : Except ExtractErr (List Nat) :=
  match f.docxParse with
  | .ok paras => .ok (pyStrip (joinNl paras))
  | .error e =>
      .error (.docxFailure
        (strLit "Failed to extract text from Word document: " ++ e))

def pdfType : List Nat := strLit "application/pdf"
def imagePrefix : List Nat := strLit "image/"
def plainType : List Nat := strLit "text/plain"
def docxType : List Nat :=
  strLit "application/vnd.openxmlformats-officedocument.wordprocessingml.document"

/-- The media-type dispatch inside the try block of
DocumentProcessor.extract_text. -/
def extractInner (f : UploadedFile) : Except ExtractErr ExtractedOut :=
  if f.ftype = pdfType then (extract_from_pdf f).map .text
  else if startsWithL imagePrefix f.ftype then
    match f.imageOpen with
    | .ok img => .ok (.image img)
    | .error e => .error (.imageOpenFailure e)
  else if f.ftype = plainType then (extract_from_text f.bytes).map .text
  else if f.ftype = docxType then (extract_from_docx f).map .text
  else .error (.unsupportedType (strLit "Unsupported file type: " ++ f.ftype))

/-- DocumentProcessor.extract_text: the boundary handler catches every
extraction exception, displays it, and returns None. The pair is the
returned content (None on failure) and the displayed error message. -/
def extract_text (f : UploadedFile) :
    Option ExtractedOut × Option (List Nat) :=
  match extractInner f with
  | .ok c => (some c, none)
  | .error e =>
      (none, some (strLit "Error processing document: " ++ e.message))

/-! ### Additional strip lemmas -/

theorem dropWhile_all_nil {p : Nat → Bool} {b : List Nat}
    (h : ∀ x ∈ b, p x = true) : b.dropWhile p = [] := by
  induction b with
  | nil => rfl
  | cons x xs ih =>
      rw [List.dropWhile_cons_of_pos (h x (by simp))]
      exact ih fun y hy => h y (by simp [hy])

theorem all_takeWhile {p : Nat → Bool} {l : List Nat} :
    ∀ x ∈ l.takeWhile p, p x = true := by
  induction l with
  | nil => simp
  | cons a as ih =>
      intro x hx
      rw [List.takeWhile_cons] at hx
      by_cases hpa : p a = true
      · simp only [hpa, if_true, List.mem_cons] at hx
        rcases hx with rfl | hx
        · exact hpa
        · exact ih x hx
      · simp [hpa] at hx

theorem rstrip_concat_of_pos {p : Nat → Bool} {t : List Nat} {c : Nat}
    (h : p c = true) : rstrip p (t ++ [c]) = rstrip p t := by
  unfold rstrip
  rw [List.reverse_append, List.reverse_singleton, List.singleton_append,
    List.dropWhile_cons_of_pos h]

theorem dropWhile_head_false {p : Nat → Bool} {l r : List Nat} {c : Nat}
    (h : l.dropWhile p = c :: r) : p c = false := by
  induction l with
  | nil => simp at h
  | cons a as ih =>
      rw [List.dropWhile_cons] at h
      split at h
      · exact ih h
      · next hp =>
          cases h
          simpa using hp

theorem pyStrip_append_all {l b : List Nat}
    (hb : ∀ x ∈ b, pyWs x = true) : pyStrip (l ++ b) = pyStrip l := by
  unfold pyStrip
  rw [List.dropWhile_append]
  split
  · next hemp =>
      have h0 : List.dropWhile pyWs l = [] := by simpa using hemp
      rw [dropWhile_all_nil hb, h0]
  · exact rstrip_append_all hb

theorem length_pyStrip_le (l : List Nat) : (pyStrip l).length ≤ l.length := by
  have h1 : (l.dropWhile pyWs).length ≤ l.length := by
    have := congrArg List.length (List.takeWhile_append_dropWhile pyWs l)
    simp only [List.length_append] at this
    omega
  have h2 : (rstrip pyWs (l.dropWhile pyWs)).length ≤
      (l.dropWhile pyWs).length := by
    unfold rstrip
    have := congrArg List.length
      (List.takeWhile_append_dropWhile pyWs (l.dropWhile pyWs).reverse)
    simp only [List.length_append, List.length_reverse] at this
    simp only [List.length_reverse]
    omega
  exact le_trans h2 h1

theorem pyStrip_cons_ws {c : Nat} {l : List Nat} (h : pyWs c = true) :
    pyStrip (c :: l) = pyStrip l := by
  unfold pyStrip
  rw [List.dropWhile_cons_of_pos h]

theorem head_not_ws_of_pyStrip_eq {c : Nat} {t : List Nat}
    (h : pyStrip (c :: t) = c :: t) : pyWs c = false := by
  cases hB : pyWs c with
  | false => rfl
  | true =>
      have h1 : pyStrip (c :: t) = pyStrip t := pyStrip_cons_ws hB
      have h2 := length_pyStrip_le t
      rw [h] at h1
      have := congrArg List.length h1
      simp only [List.length_cons] at this
      omega

theorem getLast_not_ws_of_pyStrip_eq {t : List Nat} {c : Nat}
    (h : pyStrip (t ++ [c]) = t ++ [c]) : pyWs c = false := by
  cases hB : pyWs c with
  | false => rfl
  | true =>
      exfalso
      unfold pyStrip at h
      rw [List.dropWhile_append] at h
      split at h
      · rw [List.dropWhile_cons_of_pos hB] at h
        simp only [List.dropWhile_nil] at h
        have : rstrip pyWs ([] : List Nat) = [] := rfl
        rw [this] at h
        exact List.append_ne_nil_of_right_ne_nil t (by simp) h.symm
      · rw [rstrip_concat_of_pos hB] at h
        have h2 : (rstrip pyWs (t.dropWhile pyWs)).length ≤ t.length := by
          have ha : (rstrip pyWs (t.dropWhile pyWs)).length ≤
              (t.dropWhile pyWs).length := by
            unfold rstrip
            have := congrArg List.length
              (List.takeWhile_append_dropWhile pyWs (t.dropWhile pyWs).reverse)
            simp only [List.length_append, List.length_reverse] at this
            simp only [List.length_reverse]
            omega
          have hb : (t.dropWhile pyWs).length ≤ t.length := by
            have := congrArg List.length (List.takeWhile_append_dropWhile pyWs t)
            simp only [List.length_append] at this
            omega
          omega
        have := congrArg List.length h
        simp only [List.length_append, List.length_cons] at this
        omega

theorem rstrip_decomp (p : Nat → Bool) (X : List Nat) :
    ∃ b, X = rstrip p X ++ b ∧ ∀ x ∈ b, p x = true := by
  refine ⟨(X.reverse.takeWhile p).reverse, ?_, ?_⟩
  · unfold rstrip
    conv_lhs => rw [← List.reverse_reverse X,
      ← List.takeWhile_append_dropWhile p X.reverse]
    rw [List.reverse_append]
  · intro x hx
    exact all_takeWhile x (List.mem_reverse.mp hx)

theorem pyStrip_head_not_ws {l : List Nat} {c : Nat} {t : List Nat}
    (h : pyStrip l = c :: t) : pyWs c = false := by
  obtain ⟨b, hb, hball⟩ := rstrip_decomp pyWs (l.dropWhile pyWs)
  unfold pyStrip at h
  rw [h, List.cons_append] at hb
  exact dropWhile_head_false hb

theorem pyStrip_getLast_decomp {l : List Nat}
    (hne : pyStrip l ≠ []) :
    ∃ X d, pyStrip l = X ++ [d] ∧ pyWs d = false := by
  unfold pyStrip rstrip at hne ⊢
  cases hes : (l.dropWhile pyWs).reverse.dropWhile pyWs with
  | nil => rw [hes] at hne; simp at hne
  | cons e s =>
      refine ⟨s.reverse, e, ?_, dropWhile_head_false hes⟩
      exact List.reverse_cons e s

theorem pyStrip_eq_self_two {Y X : List Nat} {c d : Nat}
    (hcd : c :: Y = X ++ [d]) (hc : pyWs c = false) (hd : pyWs d = false) :
    pyStrip (c :: Y) = c :: Y := by
  unfold pyStrip
  rw [dropWhile_eq_self_of_head hc, hcd]
  exact rstrip_concat_of_neg hd

theorem pyStrip_idem (l : List Nat) : pyStrip (pyStrip l) = pyStrip l := by
  cases h : pyStrip l with
  | nil => rfl
  | cons c t =>
      obtain ⟨X, d, hXd, hd⟩ := pyStrip_getLast_decomp (l := l) (by rw [h]; simp)
      rw [h] at hXd
      exact pyStrip_eq_self_two hXd (pyStrip_head_not_ws h) hd

/-! ### Newline joining as the spec describes it -/

/-- The page texts in order, joined by single newline separators. -/
def nlJoin : List (List Nat) → List Nat
  | [] => []
  | [p] => p
  | p :: rest => p ++ 10 :: nlJoin rest

theorem nlJoin_cons_cons (p q : List Nat) (rest : List (List Nat)) :
    nlJoin (p :: q :: rest) = p ++ 10 :: nlJoin (q :: rest) := rfl

theorem joinNl_eq_nlJoin {pages : List (List Nat)} (h : pages ≠ []) :
    joinNl pages = nlJoin pages ++ [10] := by
  induction pages with
  | nil => exact absurd rfl h
  | cons p rest ih =>
      cases rest with
      | nil => simp [joinNl, nlJoin]
      | cons q rest2 =>
          rw [nlJoin_cons_cons]
          have : joinNl (p :: q :: rest2) = (p ++ [10]) ++ joinNl (q :: rest2) := by
            simp [joinNl]
          rw [this, ih (by simp)]
          simp

theorem nlJoin_cons_decomp (p : List Nat) (rest : List (List Nat)) :
    ∃ suf, nlJoin (p :: rest) = p ++ suf := by
  cases rest with
  | nil => exact ⟨[], by simp [nlJoin]⟩
  | cons q rest2 => exact ⟨10 :: nlJoin (q :: rest2), rfl⟩

theorem nlJoin_last_decomp (pages : List (List Nat)) (hne : pages ≠ []) :
    ∃ pre lastp, lastp ∈ pages ∧ nlJoin pages = pre ++ lastp := by
  induction pages with
  | nil => exact absurd rfl hne
  | cons p rest ih =>
      cases rest with
      | nil => exact ⟨[], p, by simp, by simp [nlJoin]⟩
      | cons q rest2 =>
          obtain ⟨pre, lastp, hmem, hpre⟩ := ih (by simp)
          refine ⟨p ++ 10 :: pre, lastp, by simp [hmem], ?_⟩
          rw [nlJoin_cons_cons, hpre]
          simp

theorem mem_infix_nlJoin {p : List Nat} {pages : List (List Nat)}
    (h : p ∈ pages) : p <:+: nlJoin pages := by
  induction pages with
  | nil => simp at h
  | cons q rest ih =>
      cases rest with
      | nil =>
          simp only [List.mem_singleton] at h
          subst h
          exact List.infix_refl p
      | cons r rest2 =>
          rw [List.mem_cons] at h
          rcases h with rfl | h
          · exact ⟨[], 10 :: nlJoin (r :: rest2), by simp [nlJoin_cons_cons]⟩
          · obtain ⟨s, t, hst⟩ := ih h
            exact ⟨q ++ 10 :: s, t, by
              rw [nlJoin_cons_cons, ← hst]; simp⟩

/-! ### Claims about document_processor.py -/

/-- C5: an upload whose declared media type is not PDF, image/*, plain
text or a word-processor document makes extraction fail with the
unsupported-type error naming the offending type, and the extract
operation surfaces no content to the caller. -/
theorem c5_unsupported_type_rejected (f : UploadedFile)
    (h1 : f.ftype ≠ pdfType) (h2 : startsWithL imagePrefix f.ftype = false)
    (h3 : f.ftype ≠ plainType) (h4 : f.ftype ≠ docxType) :
    extractInner f =
      .error (.unsupportedType (strLit "Unsupported file type: " ++ f.ftype)) ∧
    f.ftype <:+: (strLit "Unsupported file type: " ++ f.ftype) ∧
    (extract_text f).1 = none := by
  have hinner : extractInner f =
      .error (.unsupportedType (strLit "Unsupported file type: " ++ f.ftype)) := by
    unfold extractInner
    rw [if_neg h1, if_neg (by simp [h2]), if_neg h3, if_neg h4]
  refine ⟨hinner, ⟨strLit "Unsupported file type: ", [], by simp⟩, ?_⟩
  unfold extract_text
  rw [hinner]

/-- Witness for C5 at the concrete media type application/zip. -/
theorem c5_unsupported_type_rejected_witness :
    (strLit "application/zip" ≠ pdfType ∧
     startsWithL imagePrefix (strLit "application/zip") = false ∧
     strLit "application/zip" ≠ plainType ∧
     strLit "application/zip" ≠ docxType) ∧
    (extractInner ⟨strLit "application/zip", [], .ok [], .ok [], .ok []⟩ =
      .error (.unsupportedType
        (strLit "Unsupported file type: " ++ strLit "application/zip")) ∧
     strLit "application/zip" <:+:
       (strLit "Unsupported file type: " ++ strLit "application/zip") ∧
     (extract_text ⟨strLit "application/zip", [], .ok [], .ok [], .ok []⟩).1 =
       none) :=
  ⟨⟨by decide, by decide, by decide, by decide⟩,
   c5_unsupported_type_rejected ⟨strLit "application/zip", [], .ok [], .ok [], .ok []⟩
     (by decide) (by decide) (by decide) (by decide)⟩

/-- C6: for a PDF whose reader yields nonempty page texts, extraction
returns the newline-join of the page texts stripped of leading and
trailing whitespace; the result has no leading or trailing whitespace
(stripping it again changes nothing), and when the page texts themselves
carry no edge whitespace the result is exactly the newline-join and
contains every page text in order. -/
theorem c6_pdf_newline_join (f : UploadedFile) (pages : List (List Nat))
    (hp : f.pdfParse = .ok pages) (hne : pages ≠ [])
    (hpages : ∀ p ∈ pages, p ≠ []) :
    extract_from_pdf f = .ok (pyStrip (nlJoin pages)) ∧
    pyStrip (pyStrip (nlJoin pages)) = pyStrip (nlJoin pages) ∧
    ((∀ p ∈ pages, pyStrip p = p) →
      extract_from_pdf f = .ok (nlJoin pages) ∧
      ∀ p ∈ pages, p <:+: nlJoin pages) := by
  have hmain : extract_from_pdf f = .ok (pyStrip (nlJoin pages)) := by
    unfold extract_from_pdf
    rw [hp]
    show Except.ok (pyStrip (joinNl pages)) = Except.ok (pyStrip (nlJoin pages))
    rw [joinNl_eq_nlJoin hne,
      pyStrip_append_all (by intro x hx; simp at hx; subst hx; decide)]
  refine ⟨hmain, pyStrip_idem _, ?_⟩
  intro hstrip
  obtain ⟨p, rest, rfl⟩ := List.exists_cons_of_ne_nil hne
  obtain ⟨c, t, hct⟩ := List.exists_cons_of_ne_nil (hpages p (by simp))
  obtain ⟨suf, hsuf⟩ := nlJoin_cons_decomp p rest
  obtain ⟨pre, lastp, hlastmem, hpre⟩ := nlJoin_last_decomp (p :: rest) hne
  have hlastne := hpages _ hlastmem
  have hlastdec := List.dropLast_append_getLast hlastne
  have hc : pyWs c = false := by
    apply head_not_ws_of_pyStrip_eq (t := t)
    rw [← hct]
    exact hstrip p (by simp)
  have hd : pyWs (lastp.getLast hlastne) = false := by
    apply getLast_not_ws_of_pyStrip_eq (t := lastp.dropLast)
    rw [hlastdec]
    exact hstrip _ hlastmem
  have hhead : nlJoin (p :: rest) = c :: (t ++ suf) := by
    rw [hsuf, hct]
    simp
  have hlast : nlJoin (p :: rest) =
      (pre ++ lastp.dropLast) ++ [lastp.getLast hlastne] := by
    rw [hpre]
    conv_lhs => rw [← hlastdec]
    simp
  have hself : pyStrip (nlJoin (p :: rest)) = nlJoin (p :: rest) := by
    rw [hhead]
    exact pyStrip_eq_self_two (by rw [← hhead, hlast]) hc hd
  refine ⟨by rw [hmain, hself], fun q hq => mem_infix_nlJoin hq⟩

/-- Witness for C6 at a concrete two-page PDF. -/
theorem c6_pdf_newline_join_witness :
    ((⟨pdfType, [], .ok [strLit "page one", strLit "page two"], .ok [],
        .ok []⟩ : UploadedFile).pdfParse =
      .ok [strLit "page one", strLit "page two"] ∧
     [strLit "page one", strLit "page two"] ≠ ([] : List (List Nat)) ∧
     ∀ p ∈ [strLit "page one", strLit "page two"], p ≠ []) ∧
    (extract_from_pdf
        ⟨pdfType, [], .ok [strLit "page one", strLit "page two"], .ok [],
          .ok []⟩ =
      .ok (pyStrip (nlJoin [strLit "page one", strLit "page two"])) ∧
     pyStrip (pyStrip (nlJoin [strLit "page one", strLit "page two"])) =
       pyStrip (nlJoin [strLit "page one", strLit "page two"]) ∧
     ((∀ p ∈ [strLit "page one", strLit "page two"], pyStrip p = p) →
       extract_from_pdf
           ⟨pdfType, [], .ok [strLit "page one", strLit "page two"], .ok [],
             .ok []⟩ =
         .ok (nlJoin [strLit "page one", strLit "page two"]) ∧
       ∀ p ∈ [strLit "page one", strLit "page two"],
         p <:+: nlJoin [strLit "page one", strLit "page two"])) :=
  ⟨⟨rfl, by decide, by decide⟩,
   c6_pdf_newline_join _ [strLit "page one", strLit "page two"] rfl
     (by decide) (by decide)⟩

/-- C7: a plain-text payload that is not valid UTF-8 is decoded through
the Latin-1 fallback, which succeeds and yields the Latin-1 decoding
(each byte read as the code point of the same value) stripped of leading
and trailing whitespace. -/
theorem c7_latin1_fallback (bs : List Nat) (hutf : utf8Decode bs = none)
    (hbytes : ∀ b ∈ bs, b < 256) :
    latin1Decode bs = some bs ∧ extract_from_text bs = .ok (pyStrip bs) := by
  have hlat : latin1Decode bs = some bs := by
    unfold latin1Decode
    rw [if_pos]
    rw [List.all_eq_true]
    intro x hx
    simpa using hbytes x hx
  refine ⟨hlat, ?_⟩
  unfold extract_from_text
  rw [hutf, hlat]

/-- Witness for C7 at a payload starting with an invalid UTF-8 byte. -/
theorem c7_latin1_fallback_witness :
    (utf8Decode [255, 72, 105] = none ∧ ∀ b ∈ [255, 72, 105], b < 256) ∧
    (latin1Decode [255, 72, 105] = some [255, 72, 105] ∧
     extract_from_text [255, 72, 105] = .ok (pyStrip [255, 72, 105])) :=
  ⟨⟨by decide, by decide⟩, c7_latin1_fallback [255, 72, 105] (by decide) (by decide)⟩

/-- C10: Latin-1 decoding is total over byte payloads, so plain-text
extraction never surfaces a decode failure: the inner failure branch of
the fallback path is unreachable. -/
theorem c10_latin1_total (bs : List Nat) (hbytes : ∀ b ∈ bs, b < 256) :
    latin1Decode bs = some bs ∧ ∀ e, extract_from_text bs ≠ .error e := by
  have hlat : latin1Decode bs = some bs := by
    unfold latin1Decode
    rw [if_pos]
    rw [List.all_eq_true]
    intro x hx
    simpa using hbytes x hx
  refine ⟨hlat, fun e => ?_⟩
  unfold extract_from_text
  cases hu : utf8Decode bs with
  | some cps => simp
  | none => rw [hlat]; simp

/-- Witness for C10 at a concrete byte payload. -/
theorem c10_latin1_total_witness :
    (∀ b ∈ [200, 10], b < 256) ∧
    (latin1Decode [200, 10] = some [200, 10] ∧
     ∀ e, extract_from_text [200, 10] ≠ .error e) :=
  ⟨by decide, c10_latin1_total [200, 10] (by decide)⟩

/-! ### JSON values and parsing

Model of the decode phase of json.loads from the Python standard
library, used by gemini_classifier.py.  JSON texts are lists of code
points; numbers are represented exactly as rationals (the comparisons the
repository performs on them are order comparisons, which agree with the
floating point ones on the exactly-represented literals involved; the
non-finite extensions NaN and Infinity of the Python parser are outside
the model).  Parsing follows the JSON grammar: an element is optional
whitespace, one value, optional whitespace. -/

inductive Json where
  | null
  | bool (b : Bool)
  | num (q : ℚ)
  | str (s : List Nat)
  | arr (elems : List Json)
  | obj (fields : List (List Nat × Json))

def isDigitN (c : Nat) : Bool := 48 ≤ c && c ≤ 57

def digitsVal (ds : List Nat) : Nat :=
  ds.foldl (fun a d => a * 10 + (d - 48)) 0

def hexVal (c : Nat) : Option Nat :=
  if 48 ≤ c && c ≤ 57 then some (c - 48)
  else if 65 ≤ c && c ≤ 70 then some (c - 55)
  else if 97 ≤ c && c ≤ 102 then some (c - 87)
  else none

/-- The short escape sequences of JSON strings. -/
def escMap (e : Nat) : Option Nat :=
  if e == 34 then some 34
  else if e == 92 then some 92
  else if e == 47 then some 47
  else if e == 98 then some 8
  else if e == 102 then some 12
  else if e == 110 then some 10
  else if e == 114 then some 13
  else if e == 116 then some 9
  else none

/-- Value of four hexadecimal digits, as in a \u escape. -/
def hex4 (h1 h2 h3 h4 : Nat) : Option Nat :=
  match hexVal h1, hexVal h2, hexVal h3, hexVal h4 with
  | some a, some b, some c3, some d =>
      some (a * 4096 + b * 256 + c3 * 16 + d)
  | _, _, _, _ => none

/-- Scan a JSON string body after the opening quote: returns the decoded
content and the remainder after the closing quote.  Raw control
characters are rejected (the strict mode of json.loads); an escaped
\u sequence yields its code unit. -/
def parseStringBody : List Nat → Option (List Nat × List Nat)
  | [] => none
  | c :: rest =>
    if c == 34 then some ([], rest)
    else if c == 92 then
      match rest with
      | [] => none
      | e :: rest2 =>
        if e == 117 then
          match rest2 with
          | h1 :: h2 :: h3 :: h4 :: rest3 =>
            match hex4 h1 h2 h3 h4 with
            | some code =>
                (parseStringBody rest3).map fun p => (code :: p.1, p.2)
            | none => none
          | _ => none
        else
          match escMap e with
          | some ch => (parseStringBody rest2).map fun p => (ch :: p.1, p.2)
          | none => none
    else if c < 32 then none
    else (parseStringBody rest).map fun p => (c :: p.1, p.2)

/-- Build the rational value of a JSON number from sign, integer part,
fraction digits and exponent. -/
def mkNumQ (sgn : Bool) (ip : Nat) (fd : List Nat) (esgn : Bool)
    (ev : Nat) : ℚ :=
  let k := fd.length
  let m0 : Int := ((ip * 10 ^ k + digitsVal fd : Nat) : Int)
  let m : Int := if sgn then -m0 else m0
  let p : Int := (if esgn then -(ev : Int) else (ev : Int)) - (k : Int)
  if 0 ≤ p then ((m * 10 ^ p.toNat : Int) : ℚ) else mkRat m (10 ^ (-p).toNat)

/-- Skip the optional sign of an exponent. -/
def expTail (bs : List Nat) : List Nat :=
  if bs.head? == some 45 || bs.head? == some 43 then bs.tail else bs

/-- Optional exponent part of a JSON number. -/
def numAfterFrac (sgn : Bool) (ip : Nat) (fd : List Nat) (bs : List Nat) :
    Option (ℚ × List Nat) :=
  if bs.head? == some 101 || bs.head? == some 69 then
    if ((expTail bs.tail).takeWhile isDigitN).isEmpty then none
    else some (mkNumQ sgn ip fd (bs.tail.head? == some 45)
      (digitsVal ((expTail bs.tail).takeWhile isDigitN)),
      (expTail bs.tail).dropWhile isDigitN)
  else some (mkNumQ sgn ip fd false 0, bs)

/-- Optional fraction part of a JSON number (a dot must be followed by at
least one digit). -/
def numAfterInt (sgn : Bool) (ip : Nat) (bs : List Nat) :
    Option (ℚ × List Nat) :=
  if bs.head? == some 46 then
    if (bs.tail.takeWhile isDigitN).isEmpty then none
    else numAfterFrac sgn ip (bs.tail.takeWhile isDigitN)
      (bs.tail.dropWhile isDigitN)
  else numAfterFrac sgn ip [] bs

/-- The integer part of a JSON number after the optional sign: a single
zero or a nonzero digit followed by digits, then optional fraction and
exponent. -/
def numStart (sgn : Bool) (bs1 : List Nat) : Option (ℚ × List Nat) :=
  match bs1 with
  | [] => none
  | d :: r =>
    if d == 48 then numAfterInt sgn 0 r
    else if isDigitN d then
      numAfterInt sgn (digitsVal (d :: r.takeWhile isDigitN))
        (r.dropWhile isDigitN)
    else none

/-- JSON number grammar: optional minus, then the integer part and the
optional fraction and exponent. -/
def parseNumber (bs : List Nat) : Option (ℚ × List Nat) :=
  if bs.head? == some 45 then numStart true bs.tail else numStart false bs

mutual

/-- Scan one JSON value at the head of the input, returning the value and
the unconsumed remainder.  The fuel argument bounds the recursion depth;
loadsDoc passes enough fuel for any input. -/
def parseValue : Nat → List Nat → Option (Json × List Nat)
  | 0, _ => none
  | fuel + 1, bs =>
    match bs with
    | [] => none
    | c :: rest =>
      if c == 123 then
        if (rest.dropWhile jsonWsB).head? == some 125 then
          some (.obj [], (rest.dropWhile jsonWsB).tail)
        else
          (parseMembers fuel (rest.dropWhile jsonWsB)).map
            fun p => (.obj p.1, p.2)
      else if c == 91 then
        if (rest.dropWhile jsonWsB).head? == some 93 then
          some (.arr [], (rest.dropWhile jsonWsB).tail)
        else
          (parseElems fuel (rest.dropWhile jsonWsB)).map
            fun p => (.arr p.1, p.2)
      else if c == 34 then
        (parseStringBody rest).map fun p => (.str p.1, p.2)
      else if c == 116 then
        if startsWithL [114, 117, 101] rest then
          some (.bool true, rest.drop 3)
        else none
      else if c == 102 then
        if startsWithL [97, 108, 115, 101] rest then
          some (.bool false, rest.drop 4)
        else none
      else if c == 110 then
        if startsWithL [117, 108, 108] rest then
          some (.null, rest.drop 3)
        else none
      else (parseNumber bs).map fun p => (.num p.1, p.2)

/-- Scan the members of a JSON object after the opening brace (nonempty
case): a quoted key, a colon, a value, then a comma and further members
or the closing brace. -/
def parseMembers : Nat → List Nat →
    Option (List (List Nat × Json) × List Nat)
  | 0, _ => none
  | fuel + 1, bs =>
    if bs.head? == some 34 then
      (parseStringBody bs.tail).bind fun kp =>
        if (kp.2.dropWhile jsonWsB).head? == some 58 then
          (parseValue fuel
              ((kp.2.dropWhile jsonWsB).tail.dropWhile jsonWsB)).bind
            fun vp =>
              if (vp.2.dropWhile jsonWsB).head? == some 44 then
                (parseMembers fuel
                    ((vp.2.dropWhile jsonWsB).tail.dropWhile jsonWsB)).map
                  fun p => ((kp.1, vp.1) :: p.1, p.2)
              else if (vp.2.dropWhile jsonWsB).head? == some 125 then
                some ([(kp.1, vp.1)], (vp.2.dropWhile jsonWsB).tail)
              else none
        else none
    else none

/-- Scan the elements of a JSON array after the opening bracket (nonempty
case): a value, then a comma and further elements or the closing
bracket. -/
def parseElems : Nat → List Nat → Option (List Json × List Nat)
  | 0, _ => none
  | fuel + 1, bs =>
    (parseValue fuel bs).bind fun vp =>
      if (vp.2.dropWhile jsonWsB).head? == some 44 then
        (parseElems fuel
            ((vp.2.dropWhile jsonWsB).tail.dropWhile jsonWsB)).map
          fun p => (vp.1 :: p.1, p.2)
      else if (vp.2.dropWhile jsonWsB).head? == some 93 then
        some ([vp.1], (vp.2.dropWhile jsonWsB).tail)
      else none

end

/-- Strip the JSON inter-token whitespace from both ends. -/
def jsonStrip (l : List Nat) : List Nat :=
  rstrip jsonWsB (l.dropWhile jsonWsB)

/-- Require the input to be exactly one JSON value. -/
def parseExact (t : List Nat) : Option Json :=
  (parseValue (t.length + 1) t).bind fun p =>
    if p.2.isEmpty then some p.1 else none

/-- Model of json.loads (decode phase): per the JSON grammar an element
is ws value ws, so loads strips whitespace at both ends and requires the
remainder to be exactly one value.  none models a JSONDecodeError. -/
def loadsDoc (bs : List Nat) : Option Json :=
  parseExact (jsonStrip bs)

/-! ### gemini_classifier.py -/

/-- Python list slicing l[:-n]. -/
def dropEndL (n : Nat) (l : List Nat) : List Nat := l.take (l.length - n)

/-- The markdown fence removal of _classify_text and _classify_image:
drop a leading fence of seven characters when the text starts with one,
then drop a trailing fence of three backticks when the text ends with
one. -/
def fenceStrip (l : List Nat) : List Nat :=
  let l1 := if startsWithL (strLit "```json") l then l.drop 7 else l
  if endsWithL (strLit "```") l1 then dropEndL 3 l1 else l1

/-- The whole response normalization: strip whitespace, then remove the
markdown fences. -/
def normalizeResp (t : List Nat) : List Nat := fenceStrip (pyStrip t)

/-- The fixed eight-value category list of GeminiClassifier. -/
def categories : List (List Nat) :=
  [strLit "Invoice", strLit "Receipt", strLit "Bill", strLit "Check",
   strLit "Bank Statement", strLit "Purchase Order",
   strLit "Delivery Challan", strLit "Others"]

/-- The raw outcome of the generate_content call, as far as the
repository inspects it: the block reason name of the prompt feedback
(none when the block reason is falsy), whether the response carries a
text attribute, and the response text. -/
structure GenResponse where
  blockReasonName : Option (List Nat)
  hasText : Bool
  text : List Nat

/-- The dictionary returned on success. -/
structure ResultDict where
  category : List Nat
  confidence : ℚ
  explanation : List Nat
  deriving DecidableEq

def safetyMsg (n : List Nat) : List Nat :=
  strLit "Classification failed due to safety settings. Reason: " ++ n

def emptyRespMsg : List Nat :=
  strLit "Classification failed: The AI returned an empty response."

def jsonFailMsg (raw : List Nat) : List Nat :=
  strLit "Classification failed: The AI returned improperly formatted data. Full AI response: " ++ raw

def unexpectedMsg (e : List Nat) : List Nat :=
  strLit "An unexpected error occurred during classification: " ++ e

/-- Last-occurrence lookup in the field list of a JSON object: the dict
built by json.loads keeps the last value bound to a repeated key. -/
def lookupLast (fields : List (List Nat × Json)) (k : List Nat) :
    Option Json :=
  match fields with
  | [] => none
  | (k0, v) :: rest =>
    match lookupLast rest k with
    | some r => some r
    | none => if k0 = k then some v else none

/-- The construction of ClassificationResult from the parsed JSON data:
requires a mapping carrying the three declared fields with their declared
types.  The lax coercions of the validation library (such as numeric
strings for the float field) are modelled strictly; every claim below
quantifies over responses this validation accepts or conditions only on
its failure.  The error messages stand for the TypeError and
ValidationError texts, which the repository never inspects. -/
def validateFields : Json → Except (List Nat) (List Nat × ℚ × List Nat)
  | .obj fields =>
      match lookupLast fields (strLit "category"),
            lookupLast fields (strLit "confidence"),
            lookupLast fields (strLit "explanation") with
      | some (.str c), some (.num q), some (.str e) => .ok (c, q, e)
      | _, _, _ => .error (strLit "validation error for ClassificationResult")
  | _ => .error (strLit "argument of type ClassificationResult must be a mapping")

/-- GeminiClassifier._classify_text applied to the raw outcome of the
remote call.  The safety-check ValueError, the empty-response ValueError
and the validation errors are raised inside the try block and re-wrapped
by the generic handler; the JSONDecodeError handler raises its ValueError
from the handler itself, so that message propagates unwrapped and embeds
the raw response text. -/
def classify_text (r : GenResponse) : Except (List Nat) ResultDict :=
  match r.blockReasonName with
  | some n => .error (unexpectedMsg (safetyMsg n))
  | none =>
    if r.hasText then
      match loadsDoc (normalizeResp r.text) with
      | none => .error (jsonFailMsg r.text)
      | some j =>
        match validateFields j with
        | .error e => .error (unexpectedMsg e)
        | .ok (cat, conf, expl) =>
          .ok ⟨if categories.contains cat then cat else strLit "Others",
               max 0 (min 1 conf), expl⟩
    else .error (unexpectedMsg emptyRespMsg)

/-- GeminiClassifier._classify_image applied to the raw outcome of the
remote call: a separate transcription of lines 116 to 155 of the source,
which duplicate the response handling of _classify_text. -/
def classify_image (r : GenResponse) : Except (List Nat) ResultDict :=
  match r.blockReasonName with
  | some n => .error (unexpectedMsg (safetyMsg n))
  | none =>
    if r.hasText then
      match loadsDoc (normalizeResp r.text) with
      | none => .error (jsonFailMsg r.text)
      | some j =>
        match validateFields j with
        | .error e => .error (unexpectedMsg e)
        | .ok (cat, conf, expl) =>
          .ok ⟨if categories.contains cat then cat else strLit "Others",
               max 0 (min 1 conf), expl⟩
    else .error (unexpectedMsg emptyRespMsg)

/-- The content union accepted by classify_document. -/
inductive Content where
  | textContent (t : List Nat)
  | imageContent (img : List Nat)

/-- GeminiClassifier.classify_document: dispatch on the content kind. -/
def classify_document (c : Content) (r : GenResponse) :
    Except (List Nat) ResultDict :=
  match c with
  | .textContent _ => classify_text r
  | .imageContent _ => classify_image r

theorem classify_text_ok (r : GenResponse) (j : Json)
    (cat : List Nat) (conf : ℚ) (expl : List Nat)
    (hblock : r.blockReasonName = none) (htext : r.hasText = true)
    (hload : loadsDoc (normalizeResp r.text) = some j)
    (hval : validateFields j = .ok (cat, conf, expl)) :
    classify_text r =
      .ok ⟨if categories.contains cat then cat else strLit "Others",
           max 0 (min 1 conf), expl⟩ := by
  unfold classify_text
  rw [hblock, htext, hload]
  show (match validateFields j with
    | .error e => Except.error (unexpectedMsg e)
    | .ok (cat, conf, expl) =>
        Except.ok (ResultDict.mk
          (if categories.contains cat then cat else strLit "Others")
          (max 0 (min 1 conf)) expl)) = _
  rw [hval]

theorem classify_image_ok (r : GenResponse) (j : Json)
    (cat : List Nat) (conf : ℚ) (expl : List Nat)
    (hblock : r.blockReasonName = none) (htext : r.hasText = true)
    (hload : loadsDoc (normalizeResp r.text) = some j)
    (hval : validateFields j = .ok (cat, conf, expl)) :
    classify_image r =
      .ok ⟨if categories.contains cat then cat else strLit "Others",
           max 0 (min 1 conf), expl⟩ := by
  unfold classify_image
  rw [hblock, htext, hload]
  show (match validateFields j with
    | .error e => Except.error (unexpectedMsg e)
    | .ok (cat, conf, expl) =>
        Except.ok (ResultDict.mk
          (if categories.contains cat then cat else strLit "Others")
          (max 0 (min 1 conf)) expl)) = _
  rw [hval]

theorem classify_document_ok (c : Content) (r : GenResponse) (j : Json)
    (cat : List Nat) (conf : ℚ) (expl : List Nat)
    (hblock : r.blockReasonName = none) (htext : r.hasText = true)
    (hload : loadsDoc (normalizeResp r.text) = some j)
    (hval : validateFields j = .ok (cat, conf, expl)) :
    classify_document c r =
      .ok ⟨if categories.contains cat then cat else strLit "Others",
           max 0 (min 1 conf), expl⟩ := by
  cases c with
  | textContent t => exact classify_text_ok r j cat conf expl hblock htext hload hval
  | imageContent i => exact classify_image_ok r j cat conf expl hblock htext hload hval

/-! ### Claims about the classification pipeline -/

/-- C1: for a response that parses and validates into the three required
fields, the returned category is the parsed one when it belongs to the
fixed eight-value list and the fallback Others otherwise. -/
theorem c1_category_coerced_to_others (c : Content) (r : GenResponse)
    (j : Json) (cat : List Nat) (conf : ℚ) (expl : List Nat)
    (hblock : r.blockReasonName = none) (htext : r.hasText = true)
    (hload : loadsDoc (normalizeResp r.text) = some j)
    (hval : validateFields j = .ok (cat, conf, expl)) :
    (categories.contains cat = false →
      ∃ res, classify_document c r = .ok res ∧
        res.category = strLit "Others") ∧
    (categories.contains cat = true →
      ∃ res, classify_document c r = .ok res ∧ res.category = cat) := by
  have hmain := classify_document_ok c r j cat conf expl hblock htext hload hval
  constructor
  · intro hno
    refine ⟨_, hmain, ?_⟩
    show (if categories.contains cat = true then cat else strLit "Others") =
      strLit "Others"
    rw [hno]
    simp
  · intro hyes
    refine ⟨_, hmain, ?_⟩
    show (if categories.contains cat = true then cat else strLit "Others") = cat
    rw [hyes]
    simp

/-- Witness for C1 at a response reporting the out-of-set category
Foo. -/
theorem c1_category_coerced_to_others_witness :
    ((⟨none, true, strLit "\x7b\"category\": \"Foo\", \"confidence\": 0.5, \"explanation\": \"x\"\x7d"⟩ : GenResponse).blockReasonName = none ∧
     (⟨none, true, strLit "\x7b\"category\": \"Foo\", \"confidence\": 0.5, \"explanation\": \"x\"\x7d"⟩ : GenResponse).hasText = true ∧
     loadsDoc (normalizeResp (⟨none, true, strLit "\x7b\"category\": \"Foo\", \"confidence\": 0.5, \"explanation\": \"x\"\x7d"⟩ : GenResponse).text) =
       some (Json.obj
         [(strLit "category", Json.str (strLit "Foo")),
          (strLit "confidence", Json.num (mkRat 5 10)),
          (strLit "explanation", Json.str (strLit "x"))]) ∧
     validateFields
         (Json.obj
           [(strLit "category", Json.str (strLit "Foo")),
            (strLit "confidence", Json.num (mkRat 5 10)),
            (strLit "explanation", Json.str (strLit "x"))]) =
       .ok (strLit "Foo", mkRat 5 10, strLit "x") ∧
     categories.contains (strLit "Foo") = false) ∧
    (∃ res,
      classify_document (Content.textContent [])
          ⟨none, true, strLit "\x7b\"category\": \"Foo\", \"confidence\": 0.5, \"explanation\": \"x\"\x7d"⟩ =
        .ok res ∧ res.category = strLit "Others") :=
  ⟨⟨rfl, rfl, by rfl, by rfl, by decide⟩,
   (c1_category_coerced_to_others (Content.textContent []) _ _ _ _ _
     rfl rfl (by rfl) (by rfl)).1 (by decide)⟩

/-- C2: for a response that parses and validates into the three required
fields, the returned confidence is the reported one clamped into the unit
interval: values above one clamp to one, values below zero clamp to zero,
in-range values pass through unchanged. -/
theorem c2_confidence_clamped (c : Content) (r : GenResponse)
    (j : Json) (cat : List Nat) (conf : ℚ) (expl : List Nat)
    (hblock : r.blockReasonName = none) (htext : r.hasText = true)
    (hload : loadsDoc (normalizeResp r.text) = some j)
    (hval : validateFields j = .ok (cat, conf, expl)) :
    ∃ res, classify_document c r = .ok res ∧
      res.confidence = max 0 (min 1 conf) ∧
      (1 < conf → res.confidence = 1) ∧
      (conf < 0 → res.confidence = 0) ∧
      (0 ≤ conf → conf ≤ 1 → res.confidence = conf) := by
  have hmain := classify_document_ok c r j cat conf expl hblock htext hload hval
  refine ⟨_, hmain, rfl, ?_, ?_, ?_⟩
  · intro h1
    show max 0 (min 1 conf) = 1
    rw [min_eq_left (le_of_lt h1)]
    exact max_eq_right zero_le_one
  · intro h0
    show max 0 (min 1 conf) = 0
    rw [min_eq_right (le_of_lt (lt_of_lt_of_le h0 zero_le_one))]
    exact max_eq_left (le_of_lt h0)
  · intro h0 h1
    show max 0 (min 1 conf) = conf
    rw [min_eq_right h1]
    exact max_eq_right h0

/-- Witness for C2 at a response reporting confidence 1.5, which the
pipeline clamps to 1. -/
theorem c2_confidence_clamped_witness :
    ((⟨none, true, strLit "\x7b\"category\": \"Invoice\", \"confidence\": 1.5, \"explanation\": \"e\"\x7d"⟩ : GenResponse).blockReasonName = none ∧
     loadsDoc (normalizeResp (⟨none, true, strLit "\x7b\"category\": \"Invoice\", \"confidence\": 1.5, \"explanation\": \"e\"\x7d"⟩ : GenResponse).text) =
       some (Json.obj
         [(strLit "category", Json.str (strLit "Invoice")),
          (strLit "confidence", Json.num (mkRat 15 10)),
          (strLit "explanation", Json.str (strLit "e"))]) ∧
     (1 : ℚ) < mkRat 15 10) ∧
    (∃ res,
      classify_document (Content.textContent [])
          ⟨none, true, strLit "\x7b\"category\": \"Invoice\", \"confidence\": 1.5, \"explanation\": \"e\"\x7d"⟩ =
        .ok res ∧
      res.confidence = max 0 (min 1 (mkRat 15 10)) ∧ res.confidence = 1) :=
  ⟨⟨rfl, by rfl, by norm_num⟩, by
    obtain ⟨res, hres, hc0, hc1, _, _⟩ :=
      c2_confidence_clamped (Content.textContent [])
        ⟨none, true, strLit "\x7b\"category\": \"Invoice\", \"confidence\": 1.5, \"explanation\": \"e\"\x7d"⟩
        (Json.obj
          [(strLit "category", Json.str (strLit "Invoice")),
           (strLit "confidence", Json.num (mkRat 15 10)),
           (strLit "explanation", Json.str (strLit "e"))])
        (strLit "Invoice") (mkRat 15 10) (strLit "e")
        rfl rfl (by rfl) (by rfl)
    exact ⟨res, hres, hc0, hc1 (by norm_num)⟩⟩

/-- C4: a response whose text is not valid JSON after the fence stripping
makes classification fail rather than return a result, and the failure
message embeds the raw response text verbatim. -/
theorem c4_malformed_json_fails (c : Content) (r : GenResponse)
    (hblock : r.blockReasonName = none) (htext : r.hasText = true)
    (hload : loadsDoc (normalizeResp r.text) = none) :
    classify_document c r = .error (jsonFailMsg r.text) ∧
    r.text <:+: jsonFailMsg r.text := by
  have hmsg : r.text <:+: jsonFailMsg r.text :=
    ⟨strLit "Classification failed: The AI returned improperly formatted data. Full AI response: ",
     [], by simp [jsonFailMsg]⟩
  cases c with
  | textContent t =>
      refine ⟨?_, hmsg⟩
      show classify_text r = _
      unfold classify_text
      rw [hblock, htext, hload]
      rfl
  | imageContent i =>
      refine ⟨?_, hmsg⟩
      show classify_image r = _
      unfold classify_image
      rw [hblock, htext, hload]
      rfl

/-- Witness for C4 at the malformed response text. -/
theorem c4_malformed_json_fails_witness :
    ((⟨none, true, strLit "not json"⟩ : GenResponse).blockReasonName = none ∧
     loadsDoc (normalizeResp (strLit "not json")) = none) ∧
    (classify_document (Content.textContent []) ⟨none, true, strLit "not json"⟩ =
       .error (jsonFailMsg (strLit "not json")) ∧
     strLit "not json" <:+: jsonFailMsg (strLit "not json")) :=
  ⟨⟨rfl, by rfl⟩,
   c4_malformed_json_fails (Content.textContent [])
     ⟨none, true, strLit "not json"⟩ rfl rfl (by rfl)⟩

/-- C8: a response whose prompt feedback carries a block reason makes
classification fail with a single error whose message names the block
reason (wrapped once by the generic handler of the source). -/
theorem c8_safety_block_fails (c : Content) (r : GenResponse)
    (n : List Nat) (hblock : r.blockReasonName = some n) :
    classify_document c r = .error (unexpectedMsg (safetyMsg n)) ∧
    n <:+: unexpectedMsg (safetyMsg n) := by
  have hmsg : n <:+: unexpectedMsg (safetyMsg n) :=
    ⟨strLit "An unexpected error occurred during classification: " ++
      strLit "Classification failed due to safety settings. Reason: ",
     [], by simp [unexpectedMsg, safetyMsg]⟩
  cases c with
  | textContent t =>
      refine ⟨?_, hmsg⟩
      show classify_text r = _
      unfold classify_text
      rw [hblock]
  | imageContent i =>
      refine ⟨?_, hmsg⟩
      show classify_image r = _
      unfold classify_image
      rw [hblock]

/-- Witness for C8 at the block reason SAFETY. -/
theorem c8_safety_block_fails_witness :
    ((⟨some (strLit "SAFETY"), true, []⟩ : GenResponse).blockReasonName =
       some (strLit "SAFETY")) ∧
    (classify_document (Content.textContent [])
        ⟨some (strLit "SAFETY"), true, []⟩ =
       .error (unexpectedMsg (safetyMsg (strLit "SAFETY"))) ∧
     strLit "SAFETY" <:+: unexpectedMsg (safetyMsg (strLit "SAFETY"))) :=
  ⟨rfl,
   c8_safety_block_fails (Content.textContent [])
     ⟨some (strLit "SAFETY"), true, []⟩ (strLit "SAFETY") rfl⟩

/-- C9: the text and image classification paths apply identical
normalization, parsing, validation and error mapping: on the same raw
response they return the same result or fail with the same message. -/
theorem c9_text_image_paths_agree (r : GenResponse) :
    classify_text r = classify_image r ∧
    ∀ t img, classify_document (.textContent t) r =
      classify_document (.imageContent img) r :=
  ⟨rfl, fun _ _ => rfl⟩

/-! ### Scanner metatheory

The lemmas below characterize what the JSON scanner consumes: the
unconsumed remainder is a suffix of the input, a successfully scanned
value starts with a value-start character, and when the scanner consumes
the whole input the final character is the closing character of a
string, number, literal, object or array.  They drive the proof that the
markdown-fence normalization is transparent for valid JSON bodies. -/

theorem sfx_trans {a b c : List Nat} (h1 : ∃ zs, a = zs ++ b)
    (h2 : ∃ ws, b = ws ++ c) : ∃ us, a = us ++ c := by
  obtain ⟨zs, rfl⟩ := h1
  obtain ⟨ws, rfl⟩ := h2
  exact ⟨zs ++ ws, by simp⟩

theorem sfx_dropWhile (p : Nat → Bool) (l : List Nat) :
    ∃ zs, l = zs ++ l.dropWhile p :=
  ⟨l.takeWhile p, (List.takeWhile_append_dropWhile p l).symm⟩

theorem sfx_tail (l : List Nat) : ∃ zs, l = zs ++ l.tail := by
  cases l with
  | nil => exact ⟨[], rfl⟩
  | cons a t => exact ⟨[a], rfl⟩

theorem head?_decomp {l : List Nat} {a : Nat} (h : l.head? = some a) :
    l = a :: l.tail := by
  cases l with
  | nil => simp at h
  | cons b t =>
      simp only [List.head?_cons, Option.some.injEq] at h
      rw [h]
      rfl

theorem parseStringBody_consumed :
    ∀ {xs s ys : List Nat}, parseStringBody xs = some (s, ys) →
      ∃ zs, xs = zs ++ 34 :: ys := by
  intro xs
  induction xs using parseStringBody.induct
  case case1 =>
    intro s ys h
    simp [parseStringBody] at h
  case case2 =>
    rename_i c rest hc
    intro s ys h
    rw [parseStringBody.eq_def] at h
    simp only [hc, if_true] at h
    simp only [Option.some.injEq, Prod.mk.injEq] at h
    have hc34 : c = 34 := by simpa using hc
    refine ⟨[], ?_⟩
    rw [hc34, h.2]
    rfl
  case case3 =>
    rename_i c hne34 hc92
    intro s ys h
    rw [parseStringBody.eq_def] at h
    simp [hne34, hc92] at h
  case case4 =>
    rename_i c hne34 hc92 e he117 h1 h2 h3 h4 rest3 code hcode ih
    intro s ys h
    rw [parseStringBody.eq_def] at h
    simp only [hne34, hc92, he117, hcode, if_true, if_false,
      Bool.false_eq_true] at h
    cases hps : parseStringBody rest3 with
    | none => rw [hps] at h; simp at h
    | some p =>
        obtain ⟨s3, ys3⟩ := p
        rw [hps] at h
        simp only [Option.map_some', Option.some.injEq, Prod.mk.injEq] at h
        obtain ⟨zs, hzs⟩ := ih (by rw [hps, h.2])
        have hcv : c = 92 := by simpa using hc92
        have hev : e = 117 := by simpa using he117
        refine ⟨92 :: 117 :: h1 :: h2 :: h3 :: h4 :: zs, ?_⟩
        rw [hcv, hev, hzs]
        rfl
  case case5 =>
    rename_i c hne34 hc92 e he117 h1 h2 h3 h4 rest3 hcode
    intro s ys h
    rw [parseStringBody.eq_def] at h
    simp [hne34, hc92, he117, hcode] at h
  case case6 =>
    rename_i c hne34 hc92 e rest2 he117 hshape
    intro s ys h
    rw [parseStringBody.eq_def] at h
    cases rest2 with
    | nil => simp [hne34, hc92, he117] at h
    | cons a1 t1 =>
      cases t1 with
      | nil => simp [hne34, hc92, he117] at h
      | cons a2 t2 =>
        cases t2 with
        | nil => simp [hne34, hc92, he117] at h
        | cons a3 t3 =>
          cases t3 with
          | nil => simp [hne34, hc92, he117] at h
          | cons a4 t4 => exact absurd rfl (by intro hx; exact hshape a1 a2 a3 a4 t4 hx)
  case case7 =>
    rename_i c hne34 hc92 e rest2 hne117 ch hesc ih
    intro s ys h
    rw [parseStringBody.eq_def] at h
    simp only [hne34, hc92, hne117, hesc, if_true, if_false,
      Bool.false_eq_true] at h
    cases hps : parseStringBody rest2 with
    | none => rw [hps] at h; simp at h
    | some p =>
        obtain ⟨s2, ys2⟩ := p
        rw [hps] at h
        simp only [Option.map_some', Option.some.injEq, Prod.mk.injEq] at h
        obtain ⟨zs, hzs⟩ := ih (by rw [hps, h.2])
        have hcv : c = 92 := by simpa using hc92
        refine ⟨92 :: e :: zs, ?_⟩
        rw [hcv, hzs]
        rfl
  case case8 =>
    rename_i c hne34 hc92 e rest2 hne117 hesc
    intro s ys h
    rw [parseStringBody.eq_def] at h
    simp [hne34, hc92, hne117, hesc] at h
  case case9 =>
    rename_i c rest hne34 hne92 hlt
    intro s ys h
    rw [parseStringBody.eq_def] at h
    simp [hne34, hne92, hlt] at h
  case case10 =>
    rename_i c rest hne34 hne92 hge ih
    intro s ys h
    rw [parseStringBody.eq_def] at h
    simp only [hne34, hne92, hge, if_true, if_false, Bool.false_eq_true] at h
    cases hps : parseStringBody rest with
    | none => rw [hps] at h; simp at h
    | some p =>
        obtain ⟨s2, ys2⟩ := p
        rw [hps] at h
        simp only [Option.map_some', Option.some.injEq, Prod.mk.injEq] at h
        obtain ⟨zs, hzs⟩ := ih (by rw [hps, h.2])
        exact ⟨c :: zs, by rw [hzs]; rfl⟩

/-- The remainder form of the consumed-shape statement, as a plain
suffix. -/
theorem sfx_parseStringBody {xs s ys : List Nat}
    (h : parseStringBody xs = some (s, ys)) : ∃ zs, xs = zs ++ ys := by
  obtain ⟨zs, hzs⟩ := parseStringBody_consumed h
  exact ⟨zs ++ [34], by rw [hzs]; simp⟩

theorem exists_concat_ne_nil {l : List Nat} (h : l ≠ []) :
    ∃ t c, l = t ++ [c] := by
  have hrev : l.reverse ≠ [] := by simpa using h
  obtain ⟨c, t, hct⟩ := List.exists_cons_of_ne_nil hrev
  refine ⟨t.reverse, c, ?_⟩
  have := congrArg List.reverse hct
  simpa using this

theorem takeWhile_concat_digit {l : List Nat}
    (hne : l.takeWhile isDigitN ≠ []) :
    ∃ ds dlast, l.takeWhile isDigitN = ds ++ [dlast] ∧
      isDigitN dlast = true := by
  obtain ⟨ds, dlast, hd⟩ := exists_concat_ne_nil hne
  refine ⟨ds, dlast, hd, ?_⟩
  have : dlast ∈ l.takeWhile isDigitN := by rw [hd]; simp
  exact all_takeWhile dlast this

theorem sfx_expTail (bs : List Nat) : ∃ zs, bs = zs ++ expTail bs := by
  unfold expTail
  split
  · exact sfx_tail bs
  · exact ⟨[], rfl⟩

theorem numAfterFrac_consumed {sgn : Bool} {ip : Nat} {fd bs : List Nat}
    {q : ℚ} {rest : List Nat}
    (h : numAfterFrac sgn ip fd bs = some (q, rest)) :
    rest = bs ∨ ∃ zs d, bs = zs ++ [d] ++ rest ∧ isDigitN d = true := by
  unfold numAfterFrac at h
  split at h
  · next hcond =>
      split at h
      · exact absurd h (by simp)
      · next hed =>
          simp only [Option.some.injEq, Prod.mk.injEq] at h
          right
          cases bs with
          | nil => simp at hcond
          | cons e0 t =>
              simp only [List.tail_cons] at h hed
              obtain ⟨zs0, hzs0⟩ := sfx_expTail t
              have htdec : expTail t =
                  (expTail t).takeWhile isDigitN ++
                    (expTail t).dropWhile isDigitN :=
                (List.takeWhile_append_dropWhile _ _).symm
              have htne : (expTail t).takeWhile isDigitN ≠ [] := by
                intro hnil
                rw [hnil] at hed
                simp at hed
              obtain ⟨ds, dlast, hds, hdig⟩ := takeWhile_concat_digit htne
              have hrest : rest = (expTail t).dropWhile isDigitN := h.2.symm
              refine ⟨e0 :: (zs0 ++ ds), dlast, ?_, hdig⟩
              conv_lhs => rw [hzs0, htdec, hds]
              rw [hrest]
              simp
  · simp only [Option.some.injEq, Prod.mk.injEq] at h
    exact Or.inl h.2.symm

theorem numAfterInt_consumed {sgn : Bool} {ip : Nat} {bs : List Nat}
    {q : ℚ} {rest : List Nat}
    (h : numAfterInt sgn ip bs = some (q, rest)) :
    rest = bs ∨ ∃ zs d, bs = zs ++ [d] ++ rest ∧ isDigitN d = true := by
  unfold numAfterInt at h
  split at h
  · next hcond =>
      split at h
      · exact absurd h (by simp)
      · next hfd =>
          right
          cases bs with
          | nil => simp at hcond
          | cons c0 t =>
              have hc046 : c0 = 46 := by simpa using hcond
              simp only [List.tail_cons] at h hfd
              have htne : t.takeWhile isDigitN ≠ [] := by
                intro hnil
                rw [hnil] at hfd
                simp at hfd
              obtain ⟨ds, dlast, hds, hdig⟩ := takeWhile_concat_digit htne
              have htdec : t =
                  t.takeWhile isDigitN ++ t.dropWhile isDigitN :=
                (List.takeWhile_append_dropWhile _ _).symm
              rcases numAfterFrac_consumed h with hrfl | ⟨zs, d, hzs, hdig2⟩
              · refine ⟨46 :: ds, dlast, ?_, hdig⟩
                rw [hc046, hrfl]
                conv_lhs => rw [htdec, hds]
                simp
              · refine ⟨46 :: (t.takeWhile isDigitN ++ zs), d, ?_, hdig2⟩
                rw [hc046]
                conv_lhs => rw [htdec, hzs]
                simp
  · rcases numAfterFrac_consumed h with hrfl | hr
    · exact Or.inl hrfl
    · exact Or.inr hr

theorem numStart_consumed {sgn : Bool} {bs1 : List Nat} {q : ℚ}
    {rest : List Nat} (h : numStart sgn bs1 = some (q, rest)) :
    ∃ zs d, bs1 = zs ++ [d] ++ rest ∧ isDigitN d = true := by
  cases bs1 with
  | nil => simp [numStart] at h
  | cons d r =>
      simp only [numStart] at h
      split at h
      · next hd48 =>
          have hd48v : d = 48 := by simpa using hd48
          rcases numAfterInt_consumed h with hrfl | ⟨zs, dd, hzs, hdig⟩
          · refine ⟨[], 48, ?_, by decide⟩
            rw [hd48v, hrfl]
            rfl
          · refine ⟨48 :: zs, dd, ?_, hdig⟩
            rw [hd48v, hzs]
            rfl
      · split at h
        · next hdig0 =>
            have htdec : r =
                r.takeWhile isDigitN ++ r.dropWhile isDigitN :=
              (List.takeWhile_append_dropWhile _ _).symm
            rcases numAfterInt_consumed h with hrfl | ⟨zs, dd, hzs, hdig⟩
            · cases htk : r.takeWhile isDigitN with
              | nil =>
                  refine ⟨[], d, ?_, hdig0⟩
                  rw [hrfl]
                  conv_lhs => rw [htdec, htk]
                  rfl
              | cons t0 ts =>
                  obtain ⟨ds, dlast, hds, hdigl⟩ :=
                    takeWhile_concat_digit (l := r) (by rw [htk]; simp)
                  refine ⟨d :: ds, dlast, ?_, hdigl⟩
                  rw [hrfl]
                  conv_lhs => rw [htdec, hds]
                  simp
            · refine ⟨d :: (r.takeWhile isDigitN ++ zs), dd, ?_, hdig⟩
              conv_lhs => rw [htdec, hzs]
              simp
        · exact absurd h (by simp)

theorem parseNumber_consumed {bs : List Nat} {q : ℚ} {rest : List Nat}
    (h : parseNumber bs = some (q, rest)) :
    ∃ zs d, bs = zs ++ [d] ++ rest ∧ isDigitN d = true := by
  unfold parseNumber at h
  split at h
  · next hcond =>
      cases bs with
      | nil => simp at hcond
      | cons c0 t =>
          simp only [List.tail_cons] at h
          obtain ⟨zs, d, hzs, hdig⟩ := numStart_consumed h
          refine ⟨c0 :: zs, d, ?_, hdig⟩
          rw [hzs]
          rfl
  · exact numStart_consumed h

theorem sfx_parseNumber {bs : List Nat} {q : ℚ} {rest : List Nat}
    (h : parseNumber bs = some (q, rest)) : ∃ zs, bs = zs ++ rest := by
  obtain ⟨zs, d, hzs, _⟩ := parseNumber_consumed h
  exact ⟨zs ++ [d], by rw [hzs]⟩

/-! ### Step equations of the mutual scanner -/

theorem parseValue_zero (bs : List Nat) : parseValue 0 bs = none := rfl

theorem parseValue_nil (fuel : Nat) : parseValue (fuel + 1) [] = none := rfl

theorem parseValue_cons (fuel : Nat) (c : Nat) (r0 : List Nat) :
    parseValue (fuel + 1) (c :: r0) =
      (if c == 123 then
        if (r0.dropWhile jsonWsB).head? == some 125 then
          some (.obj [], (r0.dropWhile jsonWsB).tail)
        else
          (parseMembers fuel (r0.dropWhile jsonWsB)).map
            fun p => (.obj p.1, p.2)
      else if c == 91 then
        if (r0.dropWhile jsonWsB).head? == some 93 then
          some (.arr [], (r0.dropWhile jsonWsB).tail)
        else
          (parseElems fuel (r0.dropWhile jsonWsB)).map
            fun p => (.arr p.1, p.2)
      else if c == 34 then
        (parseStringBody r0).map fun p => (.str p.1, p.2)
      else if c == 116 then
        if startsWithL [114, 117, 101] r0 then
          some (.bool true, r0.drop 3)
        else none
      else if c == 102 then
        if startsWithL [97, 108, 115, 101] r0 then
          some (.bool false, r0.drop 4)
        else none
      else if c == 110 then
        if startsWithL [117, 108, 108] r0 then
          some (.null, r0.drop 3)
        else none
      else (parseNumber (c :: r0)).map fun p => (.num p.1, p.2)) := rfl

theorem parseMembers_zero (bs : List Nat) : parseMembers 0 bs = none := rfl

theorem parseMembers_succ (fuel : Nat) (bs : List Nat) :
    parseMembers (fuel + 1) bs =
      (if bs.head? == some 34 then
        (parseStringBody bs.tail).bind fun kp =>
          if (kp.2.dropWhile jsonWsB).head? == some 58 then
            (parseValue fuel
                ((kp.2.dropWhile jsonWsB).tail.dropWhile jsonWsB)).bind
              fun vp =>
                if (vp.2.dropWhile jsonWsB).head? == some 44 then
                  (parseMembers fuel
                      ((vp.2.dropWhile jsonWsB).tail.dropWhile jsonWsB)).map
                    fun p => ((kp.1, vp.1) :: p.1, p.2)
                else if (vp.2.dropWhile jsonWsB).head? == some 125 then
                  some ([(kp.1, vp.1)], (vp.2.dropWhile jsonWsB).tail)
                else none
          else none
      else none) := rfl

theorem parseElems_zero (bs : List Nat) : parseElems 0 bs = none := rfl

theorem parseElems_succ (fuel : Nat) (bs : List Nat) :
    parseElems (fuel + 1) bs =
      ((parseValue fuel bs).bind fun vp =>
        if (vp.2.dropWhile jsonWsB).head? == some 44 then
          (parseElems fuel
              ((vp.2.dropWhile jsonWsB).tail.dropWhile jsonWsB)).map
            fun p => (vp.1 :: p.1, p.2)
        else if (vp.2.dropWhile jsonWsB).head? == some 93 then
          some ([vp.1], (vp.2.dropWhile jsonWsB).tail)
        else none) := rfl

/-! ### Character classes at the edges of a scanned value -/

/-- The characters a JSON value can start with. -/
def goodHeadB (c : Nat) : Bool :=
  c == 34 || c == 45 || isDigitN c || c == 91 || c == 102 || c == 110 ||
  c == 116 || c == 123

/-- The characters a fully scanned JSON value can end with. -/
def goodLastB (d : Nat) : Bool :=
  d == 34 || isDigitN d || d == 101 || d == 108 || d == 125 || d == 93

theorem goodHeadB_iff (c : Nat) : goodHeadB c = true ↔
    (c = 34 ∨ c = 45 ∨ (48 ≤ c ∧ c ≤ 57) ∨ c = 91 ∨ c = 102 ∨ c = 110 ∨
      c = 116 ∨ c = 123) := by
  simp only [goodHeadB, isDigitN, Bool.or_eq_true, Bool.and_eq_true,
    beq_iff_eq, decide_eq_true_eq]
  omega

theorem goodLastB_iff (d : Nat) : goodLastB d = true ↔
    (d = 34 ∨ (48 ≤ d ∧ d ≤ 57) ∨ d = 101 ∨ d = 108 ∨ d = 125 ∨ d = 93) := by
  simp only [goodLastB, isDigitN, Bool.or_eq_true, Bool.and_eq_true,
    beq_iff_eq, decide_eq_true_eq]
  omega

theorem goodHead_class {c : Nat} (h : goodHeadB c = true) :
    pyWs c = false ∧ jsonWsB c = false ∧ c ≠ 96 := by
  have hp := (goodHeadB_iff c).mp h
  refine ⟨?_, ?_, by omega⟩
  · cases hw : pyWs c with
    | false => rfl
    | true =>
        exfalso
        simp only [pyWs, Bool.or_eq_true, Bool.and_eq_true, beq_iff_eq,
          decide_eq_true_eq] at hw
        omega
  · cases hw : jsonWsB c with
    | false => rfl
    | true =>
        exfalso
        simp only [jsonWsB, Bool.or_eq_true, beq_iff_eq] at hw
        omega

theorem goodLast_class {d : Nat} (h : goodLastB d = true) :
    pyWs d = false ∧ jsonWsB d = false ∧ d ≠ 96 := by
  have hp := (goodLastB_iff d).mp h
  refine ⟨?_, ?_, by omega⟩
  · cases hw : pyWs d with
    | false => rfl
    | true =>
        exfalso
        simp only [pyWs, Bool.or_eq_true, Bool.and_eq_true, beq_iff_eq,
          decide_eq_true_eq] at hw
        omega
  · cases hw : jsonWsB d with
    | false => rfl
    | true =>
        exfalso
        simp only [jsonWsB, Bool.or_eq_true, beq_iff_eq] at hw
        omega

/-- The unconsumed remainder of every scan is a suffix of its input. -/
theorem parse_sfx (fuel : Nat) :
    (∀ bs v rest, parseValue fuel bs = some (v, rest) →
      ∃ zs, bs = zs ++ rest) ∧
    (∀ bs fs rest, parseMembers fuel bs = some (fs, rest) →
      ∃ zs, bs = zs ++ rest) ∧
    (∀ bs es rest, parseElems fuel bs = some (es, rest) →
      ∃ zs, bs = zs ++ rest) := by
  induction fuel with
  | zero =>
      refine ⟨?_, ?_, ?_⟩
      · intro bs v rest h
        rw [parseValue_zero] at h
        exact absurd h (by simp)
      · intro bs fs rest h
        rw [parseMembers_zero] at h
        exact absurd h (by simp)
      · intro bs es rest h
        rw [parseElems_zero] at h
        exact absurd h (by simp)
  | succ fuel ih =>
      obtain ⟨ihV, ihM, ihE⟩ := ih
      refine ⟨?_, ?_, ?_⟩
      · intro bs v rest h
        cases bs with
        | nil =>
            rw [parseValue_nil] at h
            exact absurd h (by simp)
        | cons c r0 =>
            rw [parseValue_cons] at h
            split at h
            · split at h
              · next hh =>
                  simp only [Option.some.injEq, Prod.mk.injEq] at h
                  obtain ⟨zsa, hzsa⟩ := sfx_dropWhile jsonWsB r0
                  have hdw := head?_decomp (l := r0.dropWhile jsonWsB)
                    (by simpa using hh)
                  refine ⟨c :: (zsa ++ [125]), ?_⟩
                  rw [← h.2]
                  conv_lhs => rw [hzsa, hdw]
                  simp
              · cases hm : parseMembers fuel (r0.dropWhile jsonWsB) with
                | none => rw [hm] at h; exact absurd h (by simp)
                | some p =>
                    rw [hm] at h
                    simp only [Option.map_some', Option.some.injEq,
                      Prod.mk.injEq] at h
                    obtain ⟨zs, hzs⟩ := ihM _ p.1 p.2 (by rw [hm])
                    obtain ⟨zsa, hzsa⟩ := sfx_dropWhile jsonWsB r0
                    refine ⟨c :: (zsa ++ zs), ?_⟩
                    rw [← h.2]
                    conv_lhs => rw [hzsa, hzs]
                    simp
            · split at h
              · split at h
                · next hh =>
                    simp only [Option.some.injEq, Prod.mk.injEq] at h
                    obtain ⟨zsa, hzsa⟩ := sfx_dropWhile jsonWsB r0
                    have hdw := head?_decomp (l := r0.dropWhile jsonWsB)
                      (by simpa using hh)
                    refine ⟨c :: (zsa ++ [93]), ?_⟩
                    rw [← h.2]
                    conv_lhs => rw [hzsa, hdw]
                    simp
                · cases hm : parseElems fuel (r0.dropWhile jsonWsB) with
                  | none => rw [hm] at h; exact absurd h (by simp)
                  | some p =>
                      rw [hm] at h
                      simp only [Option.map_some', Option.some.injEq,
                        Prod.mk.injEq] at h
                      obtain ⟨zs, hzs⟩ := ihE _ p.1 p.2 (by rw [hm])
                      obtain ⟨zsa, hzsa⟩ := sfx_dropWhile jsonWsB r0
                      refine ⟨c :: (zsa ++ zs), ?_⟩
                      rw [← h.2]
                      conv_lhs => rw [hzsa, hzs]
                      simp
              · split at h
                · cases hk : parseStringBody r0 with
                  | none => rw [hk] at h; exact absurd h (by simp)
                  | some p =>
                      rw [hk] at h
                      simp only [Option.map_some', Option.some.injEq,
                        Prod.mk.injEq] at h
                      obtain ⟨zs, hzs⟩ := sfx_parseStringBody (by
                        rw [hk])
                      refine ⟨c :: zs, ?_⟩
                      rw [← h.2]
                      conv_lhs => rw [hzs]
                      rfl
                · split at h
                  · split at h
                    · next hsw =>
                        simp only [Option.some.injEq, Prod.mk.injEq] at h
                        obtain ⟨r1, hr1⟩ := (startsWithL_iff _ _).mp hsw
                        refine ⟨c :: [114, 117, 101], ?_⟩
                        rw [← h.2, hr1]
                        rfl
                    · exact absurd h (by simp)
                  · split at h
                    · split at h
                      · next hsw =>
                          simp only [Option.some.injEq, Prod.mk.injEq] at h
                          obtain ⟨r1, hr1⟩ := (startsWithL_iff _ _).mp hsw
                          refine ⟨c :: [97, 108, 115, 101], ?_⟩
                          rw [← h.2, hr1]
                          rfl
                      · exact absurd h (by simp)
                    · split at h
                      · split at h
                        · next hsw =>
                            simp only [Option.some.injEq,
                              Prod.mk.injEq] at h
                            obtain ⟨r1, hr1⟩ := (startsWithL_iff _ _).mp hsw
                            refine ⟨c :: [117, 108, 108], ?_⟩
                            rw [← h.2, hr1]
                            rfl
                        · exact absurd h (by simp)
                      · cases hn : parseNumber (c :: r0) with
                        | none => rw [hn] at h; exact absurd h (by simp)
                        | some p =>
                            rw [hn] at h
                            simp only [Option.map_some', Option.some.injEq,
                              Prod.mk.injEq] at h
                            obtain ⟨zs, hzs⟩ := sfx_parseNumber (by rw [hn])
                            rw [← h.2]
                            exact ⟨zs, hzs⟩
      · intro bs fs rest h
        rw [parseMembers_succ] at h
        split at h
        · next h34 =>
            have hb : bs = 34 :: bs.tail :=
              head?_decomp (by simpa using h34)
            cases hk : parseStringBody bs.tail with
            | none => rw [hk] at h; exact absurd h (by simp)
            | some kp =>
                rw [hk] at h
                simp only [Option.some_bind] at h
                obtain ⟨zsk, hzsk⟩ := sfx_parseStringBody (by rw [hk])
                split at h
                · next h58 =>
                    have h2w : kp.2.dropWhile jsonWsB =
                        58 :: (kp.2.dropWhile jsonWsB).tail :=
                      head?_decomp (by simpa using h58)
                    obtain ⟨zs2, hzs2⟩ := sfx_dropWhile jsonWsB kp.2
                    obtain ⟨zs3, hzs3⟩ := sfx_dropWhile jsonWsB
                      (kp.2.dropWhile jsonWsB).tail
                    cases hv : parseValue fuel
                        ((kp.2.dropWhile jsonWsB).tail.dropWhile jsonWsB) with
                    | none => rw [hv] at h; exact absurd h (by simp)
                    | some vp =>
                        rw [hv] at h
                        simp only [Option.some_bind] at h
                        obtain ⟨zsv, hzsv⟩ := ihV _ vp.1 vp.2 (by rw [hv])
                        obtain ⟨zs4, hzs4⟩ := sfx_dropWhile jsonWsB vp.2
                        have hchain : ∃ z, bs = z ++ vp.2.dropWhile jsonWsB := by
                          refine ⟨34 :: (zsk ++ (zs2 ++ (58 :: (zs3 ++ (zsv ++ zs4))))), ?_⟩
                          conv_lhs => rw [hb, hzsk, hzs2, h2w, hzs3, hzsv, hzs4]
                          simp
                        obtain ⟨z, hz⟩ := hchain
                        split at h
                        · next h44 =>
                            have h4w : vp.2.dropWhile jsonWsB =
                                44 :: (vp.2.dropWhile jsonWsB).tail :=
                              head?_decomp (by simpa using h44)
                            obtain ⟨zs5, hzs5⟩ := sfx_dropWhile jsonWsB
                              (vp.2.dropWhile jsonWsB).tail
                            cases hm : parseMembers fuel
                                ((vp.2.dropWhile jsonWsB).tail.dropWhile
                                  jsonWsB) with
                            | none => rw [hm] at h; exact absurd h (by simp)
                            | some p =>
                                rw [hm] at h
                                simp only [Option.map_some',
                                  Option.some.injEq, Prod.mk.injEq] at h
                                obtain ⟨zsm, hzsm⟩ := ihM _ p.1 p.2 (by rw [hm])
                                refine ⟨z ++ (44 :: (zs5 ++ zsm)), ?_⟩
                                rw [← h.2]
                                conv_lhs => rw [hz, h4w, hzs5, hzsm]
                                simp
                        · split at h
                          · next h125 =>
                              simp only [Option.some.injEq,
                                Prod.mk.injEq] at h
                              have h4w : vp.2.dropWhile jsonWsB =
                                  125 :: (vp.2.dropWhile jsonWsB).tail :=
                                head?_decomp (by simpa using h125)
                              refine ⟨z ++ [125], ?_⟩
                              rw [← h.2]
                              conv_lhs => rw [hz, h4w]
                              simp
                          · exact absurd h (by simp)
                · exact absurd h (by simp)
        · exact absurd h (by simp)
      · intro bs es rest h
        rw [parseElems_succ] at h
        cases hv : parseValue fuel bs with
        | none => rw [hv] at h; exact absurd h (by simp)
        | some vp =>
            rw [hv] at h
            simp only [Option.some_bind] at h
            obtain ⟨zsv, hzsv⟩ := ihV _ vp.1 vp.2 (by rw [hv])
            obtain ⟨zs4, hzs4⟩ := sfx_dropWhile jsonWsB vp.2
            have hchain : ∃ z, bs = z ++ vp.2.dropWhile jsonWsB := by
              refine ⟨zsv ++ zs4, ?_⟩
              conv_lhs => rw [hzsv, hzs4]
              simp
            obtain ⟨z, hz⟩ := hchain
            split at h
            · next h44 =>
                have h4w : vp.2.dropWhile jsonWsB =
                    44 :: (vp.2.dropWhile jsonWsB).tail :=
                  head?_decomp (by simpa using h44)
                obtain ⟨zs5, hzs5⟩ := sfx_dropWhile jsonWsB
                  (vp.2.dropWhile jsonWsB).tail
                cases he : parseElems fuel
                    ((vp.2.dropWhile jsonWsB).tail.dropWhile jsonWsB) with
                | none => rw [he] at h; exact absurd h (by simp)
                | some p =>
                    rw [he] at h
                    simp only [Option.map_some', Option.some.injEq,
                      Prod.mk.injEq] at h
                    obtain ⟨zse, hzse⟩ := ihE _ p.1 p.2 (by rw [he])
                    refine ⟨z ++ (44 :: (zs5 ++ zse)), ?_⟩
                    rw [← h.2]
                    conv_lhs => rw [hz, h4w, hzs5, hzse]
                    simp
            · split at h
              · next h93 =>
                  simp only [Option.some.injEq, Prod.mk.injEq] at h
                  have h4w : vp.2.dropWhile jsonWsB =
                      93 :: (vp.2.dropWhile jsonWsB).tail :=
                    head?_decomp (by simpa using h93)
                  refine ⟨z ++ [93], ?_⟩
                  rw [← h.2]
                  conv_lhs => rw [hz, h4w]
                  simp
              · exact absurd h (by simp)

theorem numStart_cons (sgn : Bool) (d : Nat) (r : List Nat) :
    numStart sgn (d :: r) =
      (if d == 48 then numAfterInt sgn 0 r
      else if isDigitN d then
        numAfterInt sgn (digitsVal (d :: r.takeWhile isDigitN))
          (r.dropWhile isDigitN)
      else none) := rfl

/-- A successful scan starts at a value-start character. -/
theorem parseValue_head {fuel : Nat} {bs : List Nat} {v : Json}
    {rest : List Nat} (h : parseValue fuel bs = some (v, rest)) :
    ∃ c tl, bs = c :: tl ∧ goodHeadB c = true := by
  cases fuel with
  | zero =>
      rw [parseValue_zero] at h
      exact absurd h (by simp)
  | succ fuel =>
      cases bs with
      | nil =>
          rw [parseValue_nil] at h
          exact absurd h (by simp)
      | cons c tl =>
          refine ⟨c, tl, rfl, ?_⟩
          cases hgh : goodHeadB c with
          | true => rfl
          | false =>
              exfalso
              have hbad : ¬(c = 34 ∨ c = 45 ∨ (48 ≤ c ∧ c ≤ 57) ∨ c = 91 ∨
                  c = 102 ∨ c = 110 ∨ c = 116 ∨ c = 123) := by
                rw [← goodHeadB_iff]
                simp [hgh]
              have h34 : c ≠ 34 := by omega
              have h45 : c ≠ 45 := by omega
              have h91 : c ≠ 91 := by omega
              have h102 : c ≠ 102 := by omega
              have h110 : c ≠ 110 := by omega
              have h116 : c ≠ 116 := by omega
              have h123 : c ≠ 123 := by omega
              have h48 : c ≠ 48 := by omega
              have hdig : isDigitN c = false := by
                cases hd : isDigitN c with
                | false => rfl
                | true =>
                    exfalso
                    simp only [isDigitN, Bool.and_eq_true,
                      decide_eq_true_eq] at hd
                    omega
              rw [parseValue_cons] at h
              rw [if_neg (by simp [h123]), if_neg (by simp [h91]),
                if_neg (by simp [h34]), if_neg (by simp [h116]),
                if_neg (by simp [h102]), if_neg (by simp [h110])] at h
              unfold parseNumber at h
              simp only [List.head?_cons] at h
              rw [if_neg (by simp [h45])] at h
              rw [numStart_cons] at h
              rw [if_neg (by simp [h48]), if_neg (by simp [hdig])] at h
              exact absurd h (by simp)

/-- A scan that consumes its whole input ends at a value-end character;
objects end at a closing brace and arrays at a closing bracket. -/
theorem parse_last (fuel : Nat) :
    (∀ bs v, parseValue fuel bs = some (v, []) →
      ∃ zs d, bs = zs ++ [d] ∧ goodLastB d = true) ∧
    (∀ bs fs, parseMembers fuel bs = some (fs, []) →
      ∃ zs, bs = zs ++ [125]) ∧
    (∀ bs es, parseElems fuel bs = some (es, []) →
      ∃ zs, bs = zs ++ [93]) := by
  induction fuel with
  | zero =>
      refine ⟨?_, ?_, ?_⟩
      · intro bs v h
        rw [parseValue_zero] at h
        exact absurd h (by simp)
      · intro bs fs h
        rw [parseMembers_zero] at h
        exact absurd h (by simp)
      · intro bs es h
        rw [parseElems_zero] at h
        exact absurd h (by simp)
  | succ fuel ih =>
      obtain ⟨ihV, ihM, ihE⟩ := ih
      have ihVsfx := (parse_sfx fuel).1
      refine ⟨?_, ?_, ?_⟩
      · intro bs v h
        cases bs with
        | nil =>
            rw [parseValue_nil] at h
            exact absurd h (by simp)
        | cons c r0 =>
            rw [parseValue_cons] at h
            split at h
            · split at h
              · next hh =>
                  simp only [Option.some.injEq, Prod.mk.injEq] at h
                  obtain ⟨zsa, hzsa⟩ := sfx_dropWhile jsonWsB r0
                  have hdw := head?_decomp (l := r0.dropWhile jsonWsB)
                    (by simpa using hh)
                  refine ⟨c :: zsa, 125, ?_, by decide⟩
                  conv_lhs => rw [hzsa, hdw, h.2]
                  rfl
              · cases hm : parseMembers fuel (r0.dropWhile jsonWsB) with
                | none => rw [hm] at h; exact absurd h (by simp)
                | some p =>
                    rw [hm] at h
                    simp only [Option.map_some', Option.some.injEq,
                      Prod.mk.injEq] at h
                    have hm2 : parseMembers fuel (r0.dropWhile jsonWsB) =
                        some (p.1, []) := by
                      rw [hm, ← h.2]
                    obtain ⟨zs, hzs⟩ := ihM _ p.1 hm2
                    obtain ⟨zsa, hzsa⟩ := sfx_dropWhile jsonWsB r0
                    refine ⟨c :: (zsa ++ zs), 125, ?_, by decide⟩
                    conv_lhs => rw [hzsa, hzs]
                    simp
            · split at h
              · split at h
                · next hh =>
                    simp only [Option.some.injEq, Prod.mk.injEq] at h
                    obtain ⟨zsa, hzsa⟩ := sfx_dropWhile jsonWsB r0
                    have hdw := head?_decomp (l := r0.dropWhile jsonWsB)
                      (by simpa using hh)
                    refine ⟨c :: zsa, 93, ?_, by decide⟩
                    conv_lhs => rw [hzsa, hdw, h.2]
                    rfl
                · cases hm : parseElems fuel (r0.dropWhile jsonWsB) with
                  | none => rw [hm] at h; exact absurd h (by simp)
                  | some p =>
                      rw [hm] at h
                      simp only [Option.map_some', Option.some.injEq,
                        Prod.mk.injEq] at h
                      have hm2 : parseElems fuel (r0.dropWhile jsonWsB) =
                          some (p.1, []) := by
                        rw [hm, ← h.2]
                      obtain ⟨zs, hzs⟩ := ihE _ p.1 hm2
                      obtain ⟨zsa, hzsa⟩ := sfx_dropWhile jsonWsB r0
                      refine ⟨c :: (zsa ++ zs), 93, ?_, by decide⟩
                      conv_lhs => rw [hzsa, hzs]
                      simp
              · split at h
                · cases hk : parseStringBody r0 with
                  | none => rw [hk] at h; exact absurd h (by simp)
                  | some p =>
                      rw [hk] at h
                      simp only [Option.map_some', Option.some.injEq,
                        Prod.mk.injEq] at h
                      have hk2 : parseStringBody r0 = some (p.1, []) := by
                        rw [hk, ← h.2]
                      obtain ⟨zs, hzs⟩ := parseStringBody_consumed hk2
                      refine ⟨c :: zs, 34, ?_, by decide⟩
                      rw [hzs]
                      rfl
                · split at h
                  · split at h
                    · next hsw =>
                        simp only [Option.some.injEq, Prod.mk.injEq] at h
                        obtain ⟨r1, hr1⟩ := (startsWithL_iff _ _).mp hsw
                        have hr1nil : r1 = [] := by
                          have := h.2
                          rw [hr1] at this
                          simpa using this
                        refine ⟨c :: [114, 117], 101, ?_, by decide⟩
                        rw [hr1, hr1nil]
                        rfl
                    · exact absurd h (by simp)
                  · split at h
                    · split at h
                      · next hsw =>
                          simp only [Option.some.injEq, Prod.mk.injEq] at h
                          obtain ⟨r1, hr1⟩ := (startsWithL_iff _ _).mp hsw
                          have hr1nil : r1 = [] := by
                            have := h.2
                            rw [hr1] at this
                            simpa using this
                          refine ⟨c :: [97, 108, 115], 101, ?_, by decide⟩
                          rw [hr1, hr1nil]
                          rfl
                      · exact absurd h (by simp)
                    · split at h
                      · split at h
                        · next hsw =>
                            simp only [Option.some.injEq,
                              Prod.mk.injEq] at h
                            obtain ⟨r1, hr1⟩ := (startsWithL_iff _ _).mp hsw
                            have hr1nil : r1 = [] := by
                              have := h.2
                              rw [hr1] at this
                              simpa using this
                            refine ⟨c :: [117, 108], 108, ?_, by decide⟩
                            rw [hr1, hr1nil]
                            rfl
                        · exact absurd h (by simp)
                      · cases hn : parseNumber (c :: r0) with
                        | none => rw [hn] at h; exact absurd h (by simp)
                        | some p =>
                            rw [hn] at h
                            simp only [Option.map_some', Option.some.injEq,
                              Prod.mk.injEq] at h
                            have hn2 : parseNumber (c :: r0) =
                                some (p.1, []) := by
                              rw [hn, ← h.2]
                            obtain ⟨zs, d, hzs, hdig⟩ :=
                              parseNumber_consumed hn2
                            refine ⟨zs, d, ?_, ?_⟩
                            · rw [hzs]
                              simp
                            · rw [goodLastB_iff]
                              simp only [isDigitN, Bool.and_eq_true,
                                decide_eq_true_eq] at hdig
                              omega
      · intro bs fs h
        rw [parseMembers_succ] at h
        split at h
        · next h34 =>
            have hb : bs = 34 :: bs.tail :=
              head?_decomp (by simpa using h34)
            cases hk : parseStringBody bs.tail with
            | none => rw [hk] at h; exact absurd h (by simp)
            | some kp =>
                rw [hk] at h
                simp only [Option.some_bind] at h
                obtain ⟨zsk, hzsk⟩ := sfx_parseStringBody (by rw [hk])
                split at h
                · next h58 =>
                    have h2w : kp.2.dropWhile jsonWsB =
                        58 :: (kp.2.dropWhile jsonWsB).tail :=
                      head?_decomp (by simpa using h58)
                    obtain ⟨zs2, hzs2⟩ := sfx_dropWhile jsonWsB kp.2
                    obtain ⟨zs3, hzs3⟩ := sfx_dropWhile jsonWsB
                      (kp.2.dropWhile jsonWsB).tail
                    cases hv : parseValue fuel
                        ((kp.2.dropWhile jsonWsB).tail.dropWhile jsonWsB) with
                    | none => rw [hv] at h; exact absurd h (by simp)
                    | some vp =>
                        rw [hv] at h
                        simp only [Option.some_bind] at h
                        obtain ⟨zsv, hzsv⟩ := ihVsfx _ vp.1 vp.2 hv
                        obtain ⟨zs4, hzs4⟩ := sfx_dropWhile jsonWsB vp.2
                        have hchain : ∃ z, bs =
                            z ++ vp.2.dropWhile jsonWsB := by
                          refine ⟨34 :: (zsk ++ (zs2 ++ (58 :: (zs3 ++
                            (zsv ++ zs4))))), ?_⟩
                          conv_lhs => rw [hb, hzsk, hzs2, h2w, hzs3, hzsv,
                            hzs4]
                          simp
                        obtain ⟨z, hz⟩ := hchain
                        split at h
                        · next h44 =>
                            have h4w : vp.2.dropWhile jsonWsB =
                                44 :: (vp.2.dropWhile jsonWsB).tail :=
                              head?_decomp (by simpa using h44)
                            obtain ⟨zs5, hzs5⟩ := sfx_dropWhile jsonWsB
                              (vp.2.dropWhile jsonWsB).tail
                            cases hm : parseMembers fuel
                                ((vp.2.dropWhile jsonWsB).tail.dropWhile
                                  jsonWsB) with
                            | none =>
                                rw [hm] at h
                                exact absurd h (by simp)
                            | some p =>
                                rw [hm] at h
                                simp only [Option.map_some',
                                  Option.some.injEq, Prod.mk.injEq] at h
                                have hm2 : parseMembers fuel
                                    ((vp.2.dropWhile jsonWsB).tail.dropWhile
                                      jsonWsB) = some (p.1, []) := by
                                  rw [hm, ← h.2]
                                obtain ⟨zsm, hzsm⟩ := ihM _ p.1 hm2
                                refine ⟨z ++ (44 :: (zs5 ++ zsm)), ?_⟩
                                conv_lhs => rw [hz, h4w, hzs5, hzsm]
                                simp
                        · split at h
                          · next h125 =>
                              simp only [Option.some.injEq,
                                Prod.mk.injEq] at h
                              have h4w : vp.2.dropWhile jsonWsB =
                                  125 :: (vp.2.dropWhile jsonWsB).tail :=
                                head?_decomp (by simpa using h125)
                              refine ⟨z, ?_⟩
                              conv_lhs => rw [hz, h4w]
                              rw [h.2]
                          · exact absurd h (by simp)
                · exact absurd h (by simp)
        · exact absurd h (by simp)
      · intro bs es h
        rw [parseElems_succ] at h
        cases hv : parseValue fuel bs with
        | none => rw [hv] at h; exact absurd h (by simp)
        | some vp =>
            rw [hv] at h
            simp only [Option.some_bind] at h
            obtain ⟨zsv, hzsv⟩ := ihVsfx _ vp.1 vp.2 hv
            obtain ⟨zs4, hzs4⟩ := sfx_dropWhile jsonWsB vp.2
            have hchain : ∃ z, bs = z ++ vp.2.dropWhile jsonWsB := by
              refine ⟨zsv ++ zs4, ?_⟩
              conv_lhs => rw [hzsv, hzs4]
              simp
            obtain ⟨z, hz⟩ := hchain
            split at h
            · next h44 =>
                have h4w : vp.2.dropWhile jsonWsB =
                    44 :: (vp.2.dropWhile jsonWsB).tail :=
                  head?_decomp (by simpa using h44)
                obtain ⟨zs5, hzs5⟩ := sfx_dropWhile jsonWsB
                  (vp.2.dropWhile jsonWsB).tail
                cases he : parseElems fuel
                    ((vp.2.dropWhile jsonWsB).tail.dropWhile jsonWsB) with
                | none => rw [he] at h; exact absurd h (by simp)
                | some p =>
                    rw [he] at h
                    simp only [Option.map_some', Option.some.injEq,
                      Prod.mk.injEq] at h
                    have he2 : parseElems fuel
                        ((vp.2.dropWhile jsonWsB).tail.dropWhile jsonWsB) =
                        some (p.1, []) := by
                      rw [he, ← h.2]
                    obtain ⟨zse, hzse⟩ := ihE _ p.1 he2
                    refine ⟨z ++ (44 :: (zs5 ++ zse)), ?_⟩
                    conv_lhs => rw [hz, h4w, hzs5, hzse]
                    simp
            · split at h
              · next h93 =>
                  simp only [Option.some.injEq, Prod.mk.injEq] at h
                  have h4w : vp.2.dropWhile jsonWsB =
                      93 :: (vp.2.dropWhile jsonWsB).tail :=
                    head?_decomp (by simpa using h93)
                  refine ⟨z, ?_⟩
                  conv_lhs => rw [hz, h4w]
                  rw [h.2]
              · exact absurd h (by simp)

/-! ### Transparency of the fence normalization for valid JSON -/

theorem parseExact_elim {t : List Nat} {v : Json}
    (h : parseExact t = some v) :
    parseValue (t.length + 1) t = some (v, []) := by
  unfold parseExact at h
  cases hv : parseValue (t.length + 1) t with
  | none => rw [hv] at h; exact absurd h (by simp)
  | some p =>
      obtain ⟨v1, r1⟩ := p
      rw [hv] at h
      simp only [Option.some_bind] at h
      split at h
      · next he =>
          simp only [Option.some.injEq] at h
          have hr1 : r1 = [] := by simpa using he
          rw [hr1, h]
      · exact absurd h (by simp)

theorem head_eq_of_eq_cons {l : List Nat} {c : Nat} {t : List Nat}
    (hl : l = c :: t) (hne : l ≠ []) : l.head hne = c := by
  subst hl
  rfl

theorem getLast?_concat_eq (zs : List Nat) (d : Nat) :
    (zs ++ [d]).getLast? = some d := by simp

theorem getLast_eq_of_eq_concat {l zs : List Nat} {d : Nat}
    (hl : l = zs ++ [d]) (hne : l ≠ []) : l.getLast hne = d := by
  have h1 : l.getLast? = some d := by rw [hl]; exact getLast?_concat_eq zs d
  rw [List.getLast?_eq_getLast l hne] at h1
  simpa using h1

theorem concat_eq_concat_last {zs ys : List Nat} {d e : Nat}
    (h : zs ++ [d] = ys ++ [e]) : d = e := by
  have := congrArg List.getLast? h
  rw [getLast?_concat_eq, getLast?_concat_eq] at this
  simpa using this

theorem startsWithL_cons_ne {a b : Nat} {as bs : List Nat} (h : a ≠ b) :
    startsWithL (a :: as) (b :: bs) = false := by
  have hab : (a == b) = false := by simpa using h
  simp [startsWithL, hab]

/-- For a body that loads as a JSON document, the response normalization
(whitespace strip plus fence removal) leaves exactly the JSON-stripped
document, and loading the normalized body yields the same value. -/
theorem loads_norm {B : List Nat} {v : Json} (h : loadsDoc B = some v) :
    normalizeResp B = jsonStrip B ∧
    loadsDoc (normalizeResp B) = some v := by
  have hpe : parseExact (jsonStrip B) = some v := h
  have hpv := parseExact_elim hpe
  obtain ⟨ch, tl, hct, hgh⟩ := parseValue_head hpv
  obtain ⟨zs, d, hzd, hgl⟩ :=
    (parse_last ((jsonStrip B).length + 1)).1 _ v hpv
  obtain ⟨hchpy, hchjs, hch96⟩ := goodHead_class hgh
  obtain ⟨hdpy, hdjs, hd96⟩ := goodLast_class hgl
  have hne : jsonStrip B ≠ [] := by rw [hct]; simp
  obtain ⟨b2, hb2, hb2all⟩ := rstrip_decomp jsonWsB (B.dropWhile jsonWsB)
  have hb2s : B.dropWhile jsonWsB = jsonStrip B ++ b2 := hb2
  have hB : B = B.takeWhile jsonWsB ++ jsonStrip B ++ b2 := by
    conv_lhs => rw [← List.takeWhile_append_dropWhile jsonWsB B, hb2s]
    rw [List.append_assoc]
  have hpyB : pyStrip B = jsonStrip B := by
    conv_lhs => rw [hB]
    exact pyStrip_sandwich
      (fun x hx => jsonWs_le_pyWs (all_takeWhile x hx))
      (fun x hx => jsonWs_le_pyWs (hb2all x hx))
      hne
      (by rw [head_eq_of_eq_cons hct hne]; exact hchpy)
      (by rw [getLast_eq_of_eq_concat hzd hne]; exact hdpy)
  have hnosw : startsWithL (strLit "```json") (jsonStrip B) = false := by
    rw [hct, show strLit "```json" = 96 :: strLit "``json" from rfl]
    exact startsWithL_cons_ne (Ne.symm hch96)
  have hnoew : endsWithL (strLit "```") (jsonStrip B) = false := by
    cases hew : endsWithL (strLit "```") (jsonStrip B) with
    | false => rfl
    | true =>
        exfalso
        obtain ⟨pre, hpre⟩ := (endsWithL_iff _ _).mp hew
        rw [hzd, show strLit "```" = [96, 96, 96] from rfl] at hpre
        have hpre2 : zs ++ [d] = (pre ++ [96, 96]) ++ [96] := by
          rw [hpre]
          simp
        exact hd96 (concat_eq_concat_last hpre2)
  have hfence : fenceStrip (jsonStrip B) = jsonStrip B := by
    unfold fenceStrip
    rw [hnosw]
    simp only [Bool.false_eq_true, if_false]
    rw [hnoew]
    simp
  have hnorm : normalizeResp B = jsonStrip B := by
    unfold normalizeResp
    rw [hpyB, hfence]
  refine ⟨hnorm, ?_⟩
  rw [hnorm]
  have hjs1 : (jsonStrip B).dropWhile jsonWsB = jsonStrip B := by
    rw [hct]
    exact dropWhile_eq_self_of_head hchjs
  have hjs2 : rstrip jsonWsB (jsonStrip B) = jsonStrip B := by
    rw [hzd]
    exact rstrip_concat_of_neg hdjs
  have hjsj : jsonStrip (jsonStrip B) = jsonStrip B := by
    have hdef : jsonStrip (jsonStrip B) =
        rstrip jsonWsB ((jsonStrip B).dropWhile jsonWsB) := rfl
    rw [hdef, hjs1, hjs2]
  show parseExact (jsonStrip (jsonStrip B)) = some v
  rw [hjsj]
  exact hpe

/-- Wrapping a body in the markdown fences and normalizing gives back
exactly the body. -/
theorem normalize_fenced (B : List Nat) :
    normalizeResp (strLit "```json" ++ B ++ strLit "```") = B := by
  have hW1 : strLit "```json" ++ B ++ strLit "```" =
      96 :: (strLit "``json" ++ B ++ strLit "```") := by
    rw [show strLit "```json" = 96 :: strLit "``json" from rfl]
    simp
  have hW2 : strLit "```json" ++ B ++ strLit "```" =
      (strLit "```json" ++ B ++ [96, 96]) ++ [96] := by
    rw [show strLit "```" = [96, 96, 96] from rfl]
    simp
  have hpy : pyStrip (strLit "```json" ++ B ++ strLit "```") =
      strLit "```json" ++ B ++ strLit "```" := by
    rw [hW1]
    exact pyStrip_eq_self_two (hW1.symm.trans hW2) (by decide) (by decide)
  have hsw : startsWithL (strLit "```json")
      (strLit "```json" ++ B ++ strLit "```") = true := by
    rw [List.append_assoc]
    exact startsWithL_append _ _
  have hdrop : (strLit "```json" ++ B ++ strLit "```").drop 7 =
      B ++ strLit "```" := by
    rw [List.append_assoc,
      show (7 : Nat) = (strLit "```json").length from rfl,
      List.drop_left]
  have hew : endsWithL (strLit "```") (B ++ strLit "```") = true :=
    endsWithL_append _ _
  have hdropEnd : dropEndL 3 (B ++ strLit "```") = B := by
    unfold dropEndL
    rw [show strLit "```" = [96, 96, 96] from rfl]
    rw [List.length_append, show ([96, 96, 96] : List Nat).length = 3
      from rfl, Nat.add_sub_cancel, List.take_left]
  unfold normalizeResp
  rw [hpy]
  unfold fenceStrip
  rw [hsw]
  simp only [if_true]
  rw [hdrop, hew]
  simp only [if_true]
  exact hdropEnd

theorem classify_text_loads_some (r : GenResponse) (v : Json)
    (hblock : r.blockReasonName = none) (htext : r.hasText = true)
    (hload : loadsDoc (normalizeResp r.text) = some v) :
    classify_text r =
      (match validateFields v with
      | .error e => Except.error (unexpectedMsg e)
      | .ok (cat, conf, expl) =>
          Except.ok (ResultDict.mk
            (if categories.contains cat then cat else strLit "Others")
            (max 0 (min 1 conf)) expl)) := by
  unfold classify_text
  rw [hblock, htext, hload]
  rfl

theorem classify_image_loads_some (r : GenResponse) (v : Json)
    (hblock : r.blockReasonName = none) (htext : r.hasText = true)
    (hload : loadsDoc (normalizeResp r.text) = some v) :
    classify_image r =
      (match validateFields v with
      | .error e => Except.error (unexpectedMsg e)
      | .ok (cat, conf, expl) =>
          Except.ok (ResultDict.mk
            (if categories.contains cat then cat else strLit "Others")
            (max 0 (min 1 conf)) expl)) := by
  unfold classify_image
  rw [hblock, htext, hload]
  rfl

theorem classify_document_text (t : List Nat) (r : GenResponse) :
    classify_document (.textContent t) r = classify_text r := rfl

theorem classify_document_image (img : List Nat) (r : GenResponse) :
    classify_document (.imageContent img) r = classify_image r := rfl

set_option maxHeartbeats 1600000 in
/-- C3: a response text consisting of a JSON body wrapped in a leading
markdown fence and a trailing fence produces exactly the same
classification outcome as the unwrapped body. -/
theorem c3_fence_wrapping_transparent (c : Content) (B : List Nat)
    (v : Json) (hB : loadsDoc B = some v) :
    classify_document c
        ⟨none, true, strLit "```json" ++ B ++ strLit "```"⟩ =
      classify_document c ⟨none, true, B⟩ := by
  obtain ⟨hnorm, hloadB⟩ := loads_norm hB
  have hW : normalizeResp (strLit "```json" ++ B ++ strLit "```") = B :=
    normalize_fenced B
  have hloadW : loadsDoc
      (normalizeResp (strLit "```json" ++ B ++ strLit "```")) = some v := by
    rw [hW]
    exact hB
  cases c with
  | textContent t =>
      rw [classify_document_text,
        classify_text_loads_some
          ⟨none, true, strLit "```json" ++ B ++ strLit "```"⟩ v rfl rfl
          hloadW,
        classify_document_text,
        classify_text_loads_some ⟨none, true, B⟩ v rfl rfl hloadB]
  | imageContent i =>
      rw [classify_document_image,
        classify_image_loads_some
          ⟨none, true, strLit "```json" ++ B ++ strLit "```"⟩ v rfl rfl
          hloadW,
        classify_document_image,
        classify_image_loads_some ⟨none, true, B⟩ v rfl rfl hloadB]

set_option maxHeartbeats 4000000 in
/-- Witness for C3 at a concrete newline-padded JSON body. -/
theorem c3_fence_wrapping_transparent_witness :
    loadsDoc (strLit "\n\x7b\"category\": \"Invoice\", \"confidence\": 0.9, \"explanation\": \"ok\"\x7d\n") =
      some (Json.obj
        [(strLit "category", Json.str (strLit "Invoice")),
         (strLit "confidence", Json.num (mkRat 9 10)),
         (strLit "explanation", Json.str (strLit "ok"))]) ∧
    classify_document (Content.textContent [])
        ⟨none, true, strLit "```json" ++
          strLit "\n\x7b\"category\": \"Invoice\", \"confidence\": 0.9, \"explanation\": \"ok\"\x7d\n" ++
          strLit "```"⟩ =
      classify_document (Content.textContent [])
        ⟨none, true,
          strLit "\n\x7b\"category\": \"Invoice\", \"confidence\": 0.9, \"explanation\": \"ok\"\x7d\n"⟩ :=
  ⟨by rfl,
   c3_fence_wrapping_transparent (Content.textContent [])
     (strLit "\n\x7b\"category\": \"Invoice\", \"confidence\": 0.9, \"explanation\": \"ok\"\x7d\n")
     (Json.obj
       [(strLit "category", Json.str (strLit "Invoice")),
        (strLit "confidence", Json.num (mkRat 9 10)),
        (strLit "explanation", Json.str (strLit "ok"))])
     (by rfl)⟩

end FinDoc
